import Mathlib

/-!
# go-wiggin: the repository checks of `repo/repo.go`

A shallow embedding of package `repo`: the `Repo` record, its four checks
(`CheckEmptyFiles`, `CheckPolicyMissingTable`, `CheckFunctionMissingTable`,
`CheckLibsMissingSchema`), their helpers and `PrintResults`.

The Go standard library is not part of the repository, so the pieces of it the
checks call are modelled here:

* `regexp`: a small abstract syntax (literal, character class, greedy `x+` over
  a class, concatenation, alternation, capture) with Go's leftmost-first
  semantics, written as the list of all threads of a backtracking search in
  priority order.  The two patterns of the source are given as syntax trees.
* `os` / `io/ioutil` / `path/filepath`: a directory tree seen from the
  repository path, with `Stat`, `ReadDir` and `Walk` over it, the POSIX limits
  on the length of a file name and of a path, and `Clean` and `Join` in their
  Unix form.

Run-time panics are modelled by `Option` (`none`), Go `error` values by
`Option Err` (`none` is `nil`).  A check takes the filesystem and the Repo
and returns the Repo after the call together with the error.
-/

namespace Wiggin

/-! ## Package `regexp` -/

/-- Syntax tree of a regular expression, after `regexp/syntax`:
`OpLiteral`, `OpCharClass`, `OpPlus` over a character class (greedy),
`OpConcat`, `OpAlternate` and `OpCapture`. -/
inductive Regexp where
  | literal (runes : List Char)
  | charClass (ranges : List (Char × Char))
  | plusClass (ranges : List (Char × Char))
  | concat (a b : Regexp)
  | alternate (a b : Regexp)
  | capture (name : String) (sub : Regexp)

/-- Membership of a rune in a character class given by inclusive ranges. -/
def inClass (ranges : List (Char × Char)) (c : Char) : Bool :=
  ranges.any fun r => decide (r.1.toNat ≤ c.toNat) && decide (c.toNat ≤ r.2.toNat)

/-- The Perl class `\w` of Go: `[0-9A-Za-z_]` (ASCII only). -/
def perlWord : List (Char × Char) :=
  [('0', '9'), ('A', 'Z'), ('_', '_'), ('a', 'z')]

/-- Whether a rune is a word character. -/
def isWord (c : Char) : Bool := inClass perlWord c

/-- Number of parenthesised subexpressions, `(*Regexp).NumSubexp`. -/
def Regexp.NumSubexp : Regexp → Nat
  | .literal _ => 0
  | .charClass _ => 0
  | .plusClass _ => 0
  | .concat a b => a.NumSubexp + b.NumSubexp
  | .alternate a b => a.NumSubexp + b.NumSubexp
  | .capture _ sub => sub.NumSubexp + 1

/-- Names of the capture groups in order of their opening parenthesis. -/
def Regexp.capNames : Regexp → List String
  | .literal _ => []
  | .charClass _ => []
  | .plusClass _ => []
  | .concat a b => a.capNames ++ b.capNames
  | .alternate a b => a.capNames ++ b.capNames
  | .capture name sub => name :: sub.capNames

/-- Names of the subexpressions, `(*Regexp).SubexpNames`: element 0 stands for
the whole expression and is always the empty string. -/
def Regexp.SubexpNames (re : Regexp) : List String := "" :: re.capNames

/-- Removes a literal from the front of the input, if it is there. -/
def dropLiteral : List Char → List Char → Option (List Char)
  | [], inp => some inp
  | _ :: _, [] => none
  | c :: l, d :: inp => if c = d then dropLiteral l inp else none

/-- Greedy `x+` over a class: the inputs left after one or more runes of the
class, the longest run first. -/
def plusRuns (p : Char → Bool) : List Char → List (List Char)
  | [] => []
  | c :: t => if p c then plusRuns p t ++ [t] else []

/-- The text consumed between an input and what is left of it. -/
def consumed (inp rest : List Char) : String :=
  String.mk (inp.take (inp.length - rest.length))

/-- A thread of the search: the input still to read and the capture texts
(index 0 the whole match, index `i` group `i`; the empty string for a group
that has not matched). -/
abbrev Thread := List Char × List String

/-- All the ways an expression matches at the front of a thread's input, in the
order a backtracking search finds them; `base` is the index of the first
capture group of the expression. -/
def runs : Regexp → Nat → Thread → List Thread
  | .literal l, _, th =>
      match dropLiteral l th.1 with
      | some r => [(r, th.2)]
      | none => []
  | .charClass rs, _, th =>
      match th.1 with
      | c :: t => if inClass rs c then [(t, th.2)] else []
      | [] => []
  | .plusClass rs, _, th => (plusRuns (inClass rs) th.1).map fun r => (r, th.2)
  | .concat a b, base, th => (runs a base th).flatMap (runs b (base + a.NumSubexp))
  | .alternate a b, base, th => runs a base th ++ runs b (base + a.NumSubexp) th
  | .capture _ sub, base, th =>
      (runs sub (base + 1) th).map fun t => (t.1, t.2.set base (consumed th.1 t.1))

/-- The first match that starts exactly at the front of the input. -/
def matchHere (re : Regexp) (inp : List Char) : Option (List String) :=
  match runs re 1 (inp, List.replicate (re.NumSubexp + 1) "") with
  | t :: _ => some (t.2.set 0 (consumed inp t.1))
  | [] => none

/-- Leftmost match: the first start position, from the left, with a match. -/
def findFrom (re : Regexp) : List Char → Option (List String)
  | [] => matchHere re []
  | c :: t =>
      match matchHere re (c :: t) with
      | some m => some m
      | none => findFrom re t

/-- Leftmost match with its subexpressions, `(*Regexp).FindStringSubmatch`;
`none` is the nil slice Go returns when there is no match. -/
def Regexp.FindStringSubmatch (re : Regexp) (s : String) : Option (List String) :=
  findFrom re s.data

/-- Whether the string contains any match, `(*Regexp).MatchString`. -/
def Regexp.MatchString (re : Regexp) (s : String) : Bool :=
  (findFrom re s.data).isSome

/-- Shape shared by both naming rules: a literal, `(?P<schema>\w+)`, `_`,
`(?P<object>\w+)` and the literal `.sql`. -/
def nameRule (lead : List Char) : Regexp :=
  .concat (.literal lead)
    (.concat (.capture "schema" (.plusClass perlWord))
      (.concat (.literal ['_'])
        (.concat (.capture "object" (.plusClass perlWord))
          (.literal ['.', 's', 'q', 'l']))))

/-- The pattern compiled in `CheckPolicyMissingTable`:
`Security\.(?P<schema>\w+)_(?P<object>\w+)\.sql`. -/
def policyPattern : Regexp := nameRule "Security.".data

/-- The pattern compiled in `CheckFunctionMissingTable`:
`Security\.fn_RLS_Read_(?P<schema>\w+)_(?P<object>\w+)\.sql`. -/
def functionPattern : Regexp := nameRule "Security.fn_RLS_Read_".data

/-! ## Packages `os`, `io/ioutil` and `path/filepath` -/

/-- Errors of the filesystem, told apart the way `os.IsNotExist` does. -/
inductive Err where
  | notExist
  | other
  deriving DecidableEq, Repr

/-- The part of `os.FileInfo` the checks read. -/
structure FileInfo where
  Name : String
  Size : Nat
  IsDir : Bool
  deriving DecidableEq, Repr

/-- A filesystem entry.  A directory carries the size `FileInfo.Size` reports
for it (system-dependent), whether the process may read it (list its names) and
search it (reach its entries), and its entries in the order `ReadDir` returns
them (sorted by name).  Names are compared byte for byte, as on a
case-sensitive filesystem. -/
inductive Node where
  | file (size : Nat)
  | dir (size : Nat) (readable searchable : Bool) (entries : List (String × Node))

/-- Longest file name the system accepts, in bytes (`NAME_MAX`). -/
def NAME_MAX : Nat := 255

/-- The filesystem as seen from the repository path `r.path`: `root` is what the
path leads to, or `none` when nothing is there.  Paths handed to the filesystem
are lists of elements below the repository path: `filepath.Join(r.path,
"WigginDB", "Tables")` is `["WigginDB", "Tables"]`.  `room` is the number of
bytes the system accepts below the repository path (`PATH_MAX` less the bytes of
the repository path and the closing zero); the repository path itself is
accepted.  Symbolic links are not modelled. -/
structure FS where
  root : Option Node
  room : Nat

/-- Bytes a path below the repository path adds to it: each element and the
separator in front of it. -/
def pathBytes (elem : List String) : Nat :=
  (elem.map fun e => 1 + e.utf8ByteSize).sum

/-- The `FileInfo` of an entry under a given name. -/
def Node.info (name : String) : Node → FileInfo
  | .file size => ⟨name, size, false⟩
  | .dir size _ _ _ => ⟨name, size, true⟩

/-- Resolves path elements below a node: `ENOTDIR`, `EACCES` and, for a name
over `NAME_MAX` looked up in a directory, `ENAMETOOLONG` are errors other than
not-exist; a missing entry is not-exist. -/
def Node.find : Node → List String → Except Err Node
  | n, [] => .ok n
  | .file _, _ :: _ => .error .other
  | .dir _ _ searchable entries, name :: more =>
      if searchable then
        if NAME_MAX < name.utf8ByteSize then .error .other
        else
          match entries.lookup name with
          | some n => n.find more
          | none => .error .notExist
      else .error .other

/-- Resolves path elements below the repository path; a path longer than the
system accepts is refused first (`ENAMETOOLONG`). -/
def FS.find (fs : FS) (elem : List String) : Except Err Node :=
  if fs.room < pathBytes elem then .error .other
  else
    match fs.root with
    | some n => n.find elem
    | none => .error .notExist

/-- The error of `os.Stat` (and `os.Lstat`) on a path below the repository
path; `none` when the call succeeds. -/
def Stat (fs : FS) (elem : List String) : Option Err :=
  match fs.find elem with
  | .ok _ => none
  | .error e => some e

/-- Listing of a directory, `ioutil.ReadDir`: the directory is read, which
needs read permission, and every entry is passed to `Lstat`, whose failure
(no search permission, a name or path too long) fails the listing. -/
def ReadDir (fs : FS) (elem : List String) : Except Err (List FileInfo) :=
  match fs.find elem with
  | .ok (.dir _ true _ entries) =>
      if entries.all fun e => (Stat fs (elem ++ [e.1])).isNone then
        .ok (entries.map fun e => e.2.info e.1)
      else .error .other
  | .ok _ => .error .other
  | .error e => .error e

/-- Splits a path at its separators. -/
def splitSlash : List Char → List (List Char)
  | [] => [[]]
  | c :: t =>
      if c = '/' then [] :: splitSlash t
      else
        match splitSlash t with
        | [] => [[c]]
        | h :: r => (c :: h) :: r

/-- One element of a path in `Clean`, on the stack of the elements kept so far
(the last one first): empty elements and `.` are dropped, `..` removes the
element before it, is dropped at the root and is kept otherwise. -/
def cleanStep (rooted : Bool) (stack : List (List Char)) (e : List Char) : List (List Char) :=
  if e = [] ∨ e = ['.'] then stack
  else if e = ['.', '.'] then
    match stack with
    | top :: more => if top = ['.', '.'] then e :: stack else more
    | [] => if rooted then [] else [e]
  else e :: stack

/-- Shortest equivalent path by lexical processing, `filepath.Clean`. -/
def Clean (path : String) : String :=
  let rooted := path.data.head? == some '/'
  let stack := (splitSlash path.data).foldl (cleanStep rooted) []
  let body := "/".intercalate (stack.reverse.map String.mk)
  if rooted then "/" ++ body else if body = "" then "." else body

/-- Joins path elements with the separator, `filepath.Join`: leading empty
elements are ignored and the result is cleaned; the empty string when every
element is empty. -/
def Join (elem : List String) : String :=
  match elem.dropWhile fun e => e = "" with
  | [] => ""
  | e :: more => Clean ("/".intercalate (e :: more))

/-- The suffix from the final dot of the final path element, if any. -/
def extChars : List Char → Option (List Char)
  | [] => none
  | c :: t =>
      match extChars t with
      | some e => some e
      | none => if t.contains '/' then none else if c = '.' then some (c :: t) else none

/-- File name extension, `filepath.Ext`. -/
def Ext (path : String) : String :=
  match extChars path.data with
  | some e => String.mk e
  | none => ""

/-- The name a `FileInfo` carries for a path, `basename` of package `os`:
trailing separators are removed, then everything up to the last separator. -/
def basename (name : List Char) : List Char :=
  let kept := (name.reverse.dropWhile fun c => c = '/').reverse
  if kept = [] then (if name = [] then [] else ['/'])
  else (kept.reverse.takeWhile fun c => c ≠ '/').reverse

/-- The callback of `filepath.Walk` over a state `σ`: path, `FileInfo` (`none`
is nil), incoming error; `none` as a result is a run-time panic. -/
abbrev WalkFunc (σ : Type) := String → Option FileInfo → Option Err → σ → Option (σ × Option Err)

mutual
/-- The recursive `walk` of `filepath`: the callback is called once for a file,
and once for a directory with the error of reading it; the entries of a
directory are then walked in order, stopping at the first error.  `SkipDir` is
left out: no callback here returns it.  `used` is the number of bytes of the
path below the repository path, `name` the name the `FileInfo` of the node
carries. -/
def walk {σ : Type} (fn : WalkFunc σ) (room : Nat) :
    String → Nat → String → Node → σ → Option (σ × Option Err)
  | path, _, name, .file size, s => fn path (some ⟨name, size, false⟩) none s
  | path, used, name, .dir size readable searchable entries, s =>
      let err : Option Err := if readable then none else some .other
      match fn path (some ⟨name, size, true⟩) err s with
      | none => none
      | some (s1, err1) =>
          if err.isSome || err1.isSome then some (s1, err1)
          else walkEntries fn room path used searchable entries s1
/-- The loop of `walk` over the names of a directory: `Lstat` of the entry
fails when the directory may not be searched or when the name or the path of
the entry is too long, and the callback then gets a nil `FileInfo` and the
error. -/
def walkEntries {σ : Type} (fn : WalkFunc σ) (room : Nat) :
    String → Nat → Bool → List (String × Node) → σ → Option (σ × Option Err)
  | _, _, _, [], s => some (s, none)
  | path, used, searchable, (name, n) :: rest, s =>
      let filename := Join [path, name]
      if !searchable || NAME_MAX < name.utf8ByteSize ||
          room < used + (1 + name.utf8ByteSize) then
        match fn filename none (some .other) s with
        | none => none
        | some (s1, err) =>
            if err.isSome then some (s1, err)
            else walkEntries fn room path used searchable rest s1
      else
        match walk fn room filename (used + (1 + name.utf8ByteSize)) name n s with
        | none => none
        | some (s1, err) =>
            if err.isSome then some (s1, err)
            else walkEntries fn room path used searchable rest s1
end

/-- Walks the tree at the repository path, `filepath.Walk`: when `Lstat` of
the root fails the callback gets a nil `FileInfo` and the error. -/
def Walk {σ : Type} (fs : FS) (root : String) (fn : WalkFunc σ) (s : σ) : Option (σ × Option Err) :=
  match fs.root with
  | none => fn root none (some .notExist) s
  | some n => walk fn fs.room root 0 (String.mk (basename root.data)) n s

/-! ## Package `repo` -/

/-- Repo represents a git repository. -/
structure Repo where
  path : String
  emptyFiles : List String
  functionsMissingTable : List String
  policiesMissingTable : List String
  libsMissingSchema : List String
  deriving DecidableEq, Repr

/-- New returns a new Repo object. -/
def New (path : String) : Repo :=
  { path := path, emptyFiles := [], functionsMissingTable := [],
    policiesMissingTable := [], libsMissingSchema := [] }

/-- Linear search of `needle` in `haystack`. -/
def contains (needle : String) : List String → Bool
  | [] => false
  | s :: haystack => if needle = s then true else contains needle haystack

/-- Go `listDir`: `ioutil.ReadDir`. -/
def listDir (fs : FS) (path : List String) : Except Err (List FileInfo) :=
  ReadDir fs path

/-- Go `fileExists`: false only when `os.Stat` reports not-exist. -/
def fileExists (fs : FS) (path : List String) : Bool :=
  match Stat fs path with
  | some .notExist => false
  | _ => true

/-- Go `tableExists`: the file `<schema>.<object>.sql` of the table directory
(the name is one path element). -/
def tableExists (fs : FS) (tableDir : List String) (schema object : String) : Bool :=
  let table := tableDir ++ [schema ++ "." ++ object ++ ".sql"]
  fileExists fs table

/-- A Go `map[string]string` as an association list with one entry per key. -/
abbrev StrMap := List (String × String)

/-- Assignment `m[k] = v`. -/
def StrMap.put : StrMap → String → String → StrMap
  | [], k, v => [(k, v)]
  | (k1, v1) :: m, k, v => if k1 = k then (k, v) :: m else (k1, v1) :: StrMap.put m k v

/-- Lookup `m[k]`: the empty string for an absent key. -/
def StrMap.get (m : StrMap) (k : String) : String :=
  (m.lookup k).getD ""

/-- The loop of `getMatchList` over `re.SubexpNames()` from index `i`; `none`
is the panic of an index `match[i]` out of range. -/
def getMatchLoop (matched : List String) : Nat → List String → StrMap → Option StrMap
  | _, [], result => some result
  | i, name :: names, result =>
      if i ≠ 0 && name ≠ "" then
        match matched.get? i with
        | some v => getMatchLoop matched (i + 1) names (result.put name v)
        | none => none
      else getMatchLoop matched (i + 1) names result

/-- Go `getMatchList`: schema- and object-name from the supplied string and
regex (the receiver is not used). -/
def getMatchList (re : Regexp) (str : String) : Option StrMap :=
  let result : StrMap := []
  if !re.MatchString str then some result
  else
    let matched := (re.FindStringSubmatch str).getD []
    getMatchLoop matched 0 re.SubexpNames result

/-- Go `extractNameParts` (the receiver is not used). -/
def extractNameParts (filename : String) (re : Regexp) : Option (String × String) :=
  match getMatchList re filename with
  | none => none
  | some matchList => some (matchList.get "schema", matchList.get "object")

/-- The loop of `checkIfMissingTable` over the listed files. -/
def checkLoop (fs : FS) (tablePath : List String) (re : Regexp) :
    List FileInfo → List String → Option (List String)
  | [], result => some result
  | f :: files, result =>
      if !re.MatchString f.Name then checkLoop fs tablePath re files result
      else
        match extractNameParts f.Name re with
        | none => none
        | some (schema, object) =>
            if !tableExists fs tablePath schema object then
              checkLoop fs tablePath re files (result ++ [f.Name])
            else checkLoop fs tablePath re files result

/-- Go `checkIfMissingTable`: the objects of `path` missing the associated
table; the result and the error it returns. -/
def checkIfMissingTable (fs : FS) (re : Regexp) (path : List String) :
    Option (List String × Option Err) :=
  let tablePath := ["WigginDB", "Tables"]
  match listDir fs path with
  | .error err => some ([], some err)
  | .ok files =>
      match checkLoop fs tablePath re files [] with
      | none => none
      | some result => some (result, none)

/-- Go `CheckPolicyMissingTable`: the Repo after the call and the error. -/
def CheckPolicyMissingTable (fs : FS) (r : Repo) : Option (Repo × Option Err) :=
  let re := policyPattern
  let path := ["WigginDB", "Security Policies"]
  match checkIfMissingTable fs re path with
  | none => none
  | some (_, some err) => some (r, some err)
  | some (result, none) => some ({ r with policiesMissingTable := result }, none)

/-- Go `CheckFunctionMissingTable`: the Repo after the call and the error. -/
def CheckFunctionMissingTable (fs : FS) (r : Repo) : Option (Repo × Option Err) :=
  let re := functionPattern
  let path := ["WigginDB", "Functions"]
  match checkIfMissingTable fs re path with
  | none => none
  | some (_, some err) => some (r, some err)
  | some (result, none) => some ({ r with functionsMissingTable := result }, none)

/-- The exclusion list of `CheckLibsMissingSchema`. -/
def excludedItems : List String :=
  ["Intility.Wiggin.csproj", "Settings.cs", "app.config", "packages.config",
   "_Data", "_Entity", "bin", "obj", "_Repo", "Properties"]

/-- The loop of `CheckLibsMissingSchema` over the listed files. -/
def libsLoop (fs : FS) : List FileInfo → Repo → Repo
  | [], r => r
  | f :: files, r =>
      if !f.IsDir then libsLoop fs files r
      else if contains f.Name excludedItems then libsLoop fs files r
      else if !fileExists fs ["WigginDB", "Security", "Schemas", f.Name ++ ".sql"] then
        libsLoop fs files { r with libsMissingSchema := r.libsMissingSchema ++ [f.Name] }
      else libsLoop fs files r

/-- Go `CheckLibsMissingSchema`: the Repo after the call and the error. -/
def CheckLibsMissingSchema (fs : FS) (r : Repo) : Repo × Option Err :=
  let libPath := ["Intility.Wiggin", "WigginLib"]
  match listDir fs libPath with
  | .error err => (r, some err)
  | .ok files => (libsLoop fs files r, none)

/-- The callback `CheckEmptyFiles` hands to `filepath.Walk`; reading a nil
`FileInfo` is a panic. -/
def emptyFilesFn : WalkFunc Repo := fun path f err r =>
  let validExtensions := [".sql", ".cs"]
  match err with
  | some e => some (r, some e)
  | none =>
      match f with
      | none => none
      | some f =>
          if contains (Ext f.Name) validExtensions && decide (f.Size < 3) then
            some ({ r with emptyFiles := r.emptyFiles ++ [path] }, none)
          else some (r, none)

/-- Go `CheckEmptyFiles`: the Repo after the call and the error. -/
def CheckEmptyFiles (fs : FS) (r : Repo) : Option (Repo × Option Err) :=
  Walk fs r.path emptyFilesFn r

/-- One call of `fmt.Println`: the operands separated by spaces. -/
def Println (args : List String) : String := " ".intercalate args

/-- Go `printSlice`, appending the lines it prints to the output. -/
def printSlice (s : List String) (out : List String) : List String :=
  if s.length > 0 then
    (s.foldl (fun o e => o ++ [Println ["*", e]]) out) ++ [Println []]
  else out

/-- Go `PrintResults`: the lines written to standard output. -/
def PrintResults (r : Repo) : List String :=
  let out : List String := []
  let out :=
    if r.emptyFiles.length > 0 then
      printSlice r.emptyFiles (out ++ [Println ["empty files:", toString r.emptyFiles.length]])
    else out
  let out :=
    if r.functionsMissingTable.length > 0 then
      printSlice r.functionsMissingTable
        (out ++ [Println ["rls functions missing table:", toString r.functionsMissingTable.length]])
    else out
  let out :=
    if r.policiesMissingTable.length > 0 then
      printSlice r.policiesMissingTable
        (out ++ [Println ["policies missing table:", toString r.policiesMissingTable.length]])
    else out
  let out :=
    if r.libsMissingSchema.length > 0 then
      printSlice r.libsMissingSchema
        (out ++ [Println ["libs missing schema:", toString r.libsMissingSchema.length]])
    else out
  out

/-! ## Vocabulary of the specification

What the properties below speak of beside the code: entries of a directory,
the sequences a check is expected to hold, one report of `PrintResults`, and a
run of the four checks. -/

/-- The table directory of the cross-reference checks. -/
def tableDir : List String := ["WigginDB", "Tables"]

/-- The schema directory of `CheckLibsMissingSchema`. -/
def schemaDir : List String := ["WigginDB", "Security", "Schemas"]

/-- Whether a directory below the repository path holds an entry of the
given name: false when the directory is absent or cannot be searched. -/
def hasEntry (fs : FS) (dir : List String) (name : String) : Bool :=
  match fs.find dir with
  | .ok (.dir _ _ true entries) => (entries.lookup name).isSome
  | _ => false

/-- A path that is there but is no searchable directory (a regular file, a
directory without permission, or a path through one of them). -/
def obstructed (fs : FS) (dir : List String) : Bool :=
  match fs.find dir with
  | .ok (.dir _ _ true _) => false
  | .error .notExist => false
  | _ => true

/-- A filename that matches the rule and whose table file
`<schema>.<object>.sql` is not an entry of the table directory. -/
def missingTable (fs : FS) (re : Regexp) (name : String) : Bool :=
  re.MatchString name &&
    match extractNameParts name re with
    | some (schema, object) => !hasEntry fs tableDir (schema ++ "." ++ object ++ ".sql")
    | none => false

/-- The system refuses the name in the directory as too long
(`ENAMETOOLONG`): the path is longer than it accepts, or the directory is
there and the name is over `NAME_MAX` bytes. -/
def refused (fs : FS) (dir : List String) (name : String) : Bool :=
  decide (fs.room < pathBytes (dir ++ [name])) ||
    (decide (NAME_MAX < name.utf8ByteSize) &&
      match fs.find dir with
      | .ok _ => true
      | .error _ => false)

/-- A subdirectory outside the exclusion list whose schema file `<name>.sql`
is not an entry of the schema directory and is a name the system accepts
there. -/
def missingSchema (fs : FS) (f : FileInfo) : Bool :=
  f.IsDir && !contains f.Name excludedItems && !hasEntry fs schemaDir (f.Name ++ ".sql") &&
    !refused fs schemaDir (f.Name ++ ".sql")

/-- One report of a violation sequence: nothing for an empty sequence, else a
line with the title and the length, one line `* <member>` per member in order,
and the blank line `printSlice` ends with. -/
def report (title : String) (s : List String) : List String :=
  if s = [] then []
  else (title ++ " " ++ toString s.length) :: ((s.map fun e => "* " ++ e) ++ [""])

/-- The four repository checks `main` registers, run one after the other on
the same Repo; the errors they return, in that order. -/
def runChecks (fs : FS) (r : Repo) : Option (Repo × List (Option Err)) :=
  match CheckEmptyFiles fs r with
  | none => none
  | some (r1, e1) =>
      match CheckFunctionMissingTable fs r1 with
      | none => none
      | some (r2, e2) =>
          match CheckPolicyMissingTable fs r2 with
          | none => none
          | some (r3, e3) =>
              let (r4, e4) := CheckLibsMissingSchema fs r3
              some (r4, [e1, e2, e3, e4])

/-! ## Closed forms used in the proofs -/

/-- Closed form of the threads of a naming rule after the schema group has
left `r1` of the input `z`: the `_`, the object group and `.sql`. -/
def tailThreads (z : List Char) (caps : List String) (r1 : List Char) : List Thread :=
  match dropLiteral ['_'] r1 with
  | none => []
  | some z2 =>
      (plusRuns isWord z2).flatMap fun r2 =>
        match dropLiteral ['.', 's', 'q', 'l'] r2 with
        | none => []
        | some r3 => [(r3, (caps.set 1 (consumed z r1)).set 2 (consumed z2 r2))]

/-- The test `checkIfMissingTable` applies to a listed name. -/
def flagged (fs : FS) (tablePath : List String) (re : Regexp) (name : String) : Bool :=
  re.MatchString name &&
    match extractNameParts name re with
    | some (schema, object) => !tableExists fs tablePath schema object
    | none => false

/-- The test `CheckLibsMissingSchema` applies to a listed entry. -/
def flaggedLib (fs : FS) (f : FileInfo) : Bool :=
  f.IsDir && !contains f.Name excludedItems &&
    !fileExists fs ["WigginDB", "Security", "Schemas", f.Name ++ ".sql"]

/-! ## Example inputs -/

/-- The regular expression `(?P<schema>a)(?P<schema>b)`: two groups that share
a name, which Go accepts. -/
def sameNameTwice : Regexp :=
  .concat (.capture "schema" (.literal ['a'])) (.capture "schema" (.literal ['b']))

/-- Policies `Security.sales_invoices.sql` and `Security.sales_orders.sql`,
and the single table `sales.orders.sql`. -/
def fsPolicy : FS :=
  ⟨some (.dir 4096 true true [("WigginDB", .dir 4096 true true [
    ("Security Policies", .dir 4096 true true [
      ("Security.sales_invoices.sql", .file 100), ("Security.sales_orders.sql", .file 100)]),
    ("Tables", .dir 4096 true true [("sales.orders.sql", .file 10)])])]), 4091⟩

/-- One policy, and a table directory the process may neither read nor
search; it holds no file. -/
def fsTablesDenied : FS :=
  ⟨some (.dir 4096 true true [("WigginDB", .dir 4096 true true [
    ("Security Policies", .dir 4096 true true [("Security.sales_orders.sql", .file 100)]),
    ("Tables", .dir 4096 false false [])])]), 4091⟩

/-- One policy, and a regular file where the table directory should be. -/
def fsTablesFile : FS :=
  ⟨some (.dir 4096 true true [("WigginDB", .dir 4096 true true [
    ("Security Policies", .dir 4096 true true [("Security.sales_orders.sql", .file 100)]),
    ("Tables", .file 0)])]), 4091⟩

/-- One policy and one function, and no table directory at all. -/
def fsNoTables : FS :=
  ⟨some (.dir 4096 true true [("WigginDB", .dir 4096 true true [
    ("Functions", .dir 4096 true true [("Security.fn_RLS_Read_sales_orders.sql", .file 100)]),
    ("Security Policies", .dir 4096 true true [("Security.sales_orders.sql", .file 100)])])]), 4091⟩

/-- Library directories `Sales`, `_Data` and `bin`, and the schema file
`Sales.sql`. -/
def fsLibs : FS :=
  ⟨some (.dir 4096 true true [
    ("Intility.Wiggin", .dir 4096 true true [("WigginLib", .dir 4096 true true [
      ("Sales", .dir 4096 true true []), ("_Data", .dir 4096 true true []), ("bin", .dir 4096 true true [])])]),
    ("WigginDB", .dir 4096 true true [("Security", .dir 4096 true true [
      ("Schemas", .dir 4096 true true [("Sales.sql", .file 50)])])])]), 4091⟩

/-- A library directory `Sales` and a schema directory the process may
neither read nor search; it holds no file. -/
def fsSchemasDenied : FS :=
  ⟨some (.dir 4096 true true [
    ("Intility.Wiggin", .dir 4096 true true [("WigginLib", .dir 4096 true true [
      ("Sales", .dir 4096 true true [])])]),
    ("WigginDB", .dir 4096 true true [("Security", .dir 4096 true true [
      ("Schemas", .dir 4096 false false [])])])]), 4091⟩

/-- Library directories `b` and one whose name is 252 letters `a`, and a
searchable schema directory that holds no file. -/
def fsLongName : FS :=
  ⟨some (.dir 4096 true true [
    ("Intility.Wiggin", .dir 4096 true true [("WigginLib", .dir 4096 true true [
      (String.mk (List.replicate 252 'a'), .dir 4096 true true []), ("b", .dir 4096 true true [])])]),
    ("WigginDB", .dir 4096 true true [("Security", .dir 4096 true true [
      ("Schemas", .dir 4096 true true [])])])]), 4091⟩

/-- A repository with every directory the checks list, one empty `.sql` file
and one library directory without schema. -/
def fsTwice : FS :=
  ⟨some (.dir 4096 true true [
    ("Intility.Wiggin", .dir 4096 true true [("WigginLib", .dir 4096 true true [
      ("Sales", .dir 4096 true true [])])]),
    ("WigginDB", .dir 4096 true true [
      ("Functions", .dir 4096 true true []),
      ("Security Policies", .dir 4096 true true [("Security.sales_orders.sql", .file 100)]),
      ("Tables", .dir 4096 true true [])]),
    ("empty.sql", .file 0)]), 4091⟩

/-- An empty `a.sql`, a directory named `archive.sql` for which the system
reports size 0, and a 400-byte `b.cs`. -/
def fsDirSql : FS :=
  ⟨some (.dir 4096 true true [("a.sql", .file 0), ("archive.sql", .dir 0 true true []), ("b.cs", .file 400)]), 4091⟩

/-! # Theorems -/

/-! ## The regular expression engine: shape of the results -/

theorem capNames_length (re : Regexp) : re.capNames.length = re.NumSubexp := by
  induction re with
  | literal _ => rfl
  | charClass _ => rfl
  | plusClass _ => rfl
  | concat a b iha ihb => simp [Regexp.capNames, Regexp.NumSubexp, iha, ihb]
  | alternate a b iha ihb => simp [Regexp.capNames, Regexp.NumSubexp, iha, ihb]
  | capture name sub ih => simp [Regexp.capNames, Regexp.NumSubexp, ih]

theorem runs_caps_length (re : Regexp) :
    ∀ (base : Nat) (th t : Thread), t ∈ runs re base th → t.2.length = th.2.length := by
  induction re with
  | literal l =>
      intro base th t ht
      simp only [runs] at ht
      split at ht <;> simp at ht
      rw [ht]
  | charClass rs =>
      intro base th t ht
      simp only [runs] at ht
      split at ht
      · split at ht <;> simp at ht
        rw [ht]
      · simp at ht
  | plusClass rs =>
      intro base th t ht
      simp only [runs, List.mem_map] at ht
      obtain ⟨r, _, rfl⟩ := ht
      rfl
  | concat a b iha ihb =>
      intro base th t ht
      simp only [runs, List.mem_flatMap] at ht
      obtain ⟨u, hu, htu⟩ := ht
      rw [ihb _ _ _ htu, iha _ _ _ hu]
  | alternate a b iha ihb =>
      intro base th t ht
      simp only [runs, List.mem_append] at ht
      rcases ht with h | h
      · exact iha _ _ _ h
      · exact ihb _ _ _ h
  | capture name sub ih =>
      intro base th t ht
      simp only [runs, List.mem_map] at ht
      obtain ⟨u, hu, rfl⟩ := ht
      simp [ih _ _ _ hu]

theorem matchHere_length {re : Regexp} {inp : List Char} {m : List String}
    (h : matchHere re inp = some m) : m.length = re.NumSubexp + 1 := by
  unfold matchHere at h
  split at h
  · next t rest heq =>
      have ht : t ∈ runs re 1 (inp, List.replicate (re.NumSubexp + 1) "") := by
        rw [heq]; exact List.mem_cons_self _ _
      have hl := runs_caps_length re _ _ _ ht
      simp only [Option.some.injEq] at h
      subst h
      simpa using hl
  · simp at h

theorem findFrom_length {re : Regexp} :
    ∀ {inp : List Char} {m : List String}, findFrom re inp = some m → m.length = re.NumSubexp + 1 := by
  intro inp
  induction inp with
  | nil => intro m h; exact matchHere_length h
  | cons c t ih =>
      intro m h
      simp only [findFrom] at h
      split at h
      · next m1 heq =>
          simp only [Option.some.injEq] at h
          subst h
          exact matchHere_length heq
      · exact ih h

/-! ## The string map of `getMatchList` -/

theorem lookup_cons_ite (m : StrMap) (k1 k2 v2 : String) :
    List.lookup k1 ((k2, v2) :: m) = if k1 = k2 then some v2 else List.lookup k1 m := by
  by_cases h : k1 = k2
  · subst h; simp [List.lookup]
  · have hb : (k1 == k2) = false := by simpa using h
    simp [List.lookup, hb, h]

theorem put_lookup (m : StrMap) (k v k1 : String) :
    (StrMap.put m k v).lookup k1 = if k1 = k then some v else m.lookup k1 := by
  induction m with
  | nil => simp [StrMap.put, lookup_cons_ite]
  | cons e m ih =>
      obtain ⟨k2, v2⟩ := e
      by_cases h2 : k2 = k
      · subst h2
        simp only [StrMap.put, if_true, lookup_cons_ite]
        by_cases h3 : k1 = k2 <;> simp [h3]
      · simp only [StrMap.put, h2, if_false, lookup_cons_ite, ih]
        by_cases h3 : k1 = k2
        · subst h3; simp [h2]
        · simp [h3]

theorem put_keys (m : StrMap) (k v k1 : String) :
    k1 ∈ (StrMap.put m k v).map Prod.fst ↔ k1 = k ∨ k1 ∈ m.map Prod.fst := by
  induction m with
  | nil => simp [StrMap.put]
  | cons e m ih =>
      obtain ⟨k2, v2⟩ := e
      by_cases h2 : k2 = k
      · subst h2; simp [StrMap.put]
      · simp only [StrMap.put, h2, if_false, List.map_cons, List.mem_cons, ih]
        tauto

theorem put_nodup (m : StrMap) (k v : String) (h : (m.map Prod.fst).Nodup) :
    ((StrMap.put m k v).map Prod.fst).Nodup := by
  induction m with
  | nil => simp [StrMap.put]
  | cons e m ih =>
      obtain ⟨k2, v2⟩ := e
      simp only [List.map_cons, List.nodup_cons] at h
      by_cases h2 : k2 = k
      · subst h2; simpa [StrMap.put] using h
      · simp only [StrMap.put, h2, if_false, List.map_cons, List.nodup_cons]
        refine ⟨?_, ih h.2⟩
        intro hmem
        rcases (put_keys m k v k2).1 hmem with h3 | h3
        · exact h2 h3
        · exact h.1 h3

theorem getMatchLoop_total (matched : List String) :
    ∀ (names : List String) (i : Nat) (result : StrMap),
      i + names.length ≤ matched.length → ∃ m, getMatchLoop matched i names result = some m := by
  intro names
  induction names with
  | nil => intro i result _; exact ⟨result, rfl⟩
  | cons name names ih =>
      intro i result h
      simp only [List.length_cons] at h
      have hi : i < matched.length := by omega
      simp only [getMatchLoop]
      split
      · rw [List.get?_eq_get hi]
        exact ih (i + 1) _ (by omega)
      · exact ih (i + 1) _ (by omega)

theorem getMatchLoop_other (matched : List String) (k : String) :
    ∀ (names : List String) (i : Nat) (result m : StrMap),
      getMatchLoop matched i names result = some m → (k = "" ∨ k ∉ names) →
      m.lookup k = result.lookup k := by
  intro names
  induction names with
  | nil =>
      intro i result m h _
      simp only [getMatchLoop, Option.some.injEq] at h
      rw [h]
  | cons name names ih =>
      intro i result m h hk
      have hk2 : k = "" ∨ k ∉ names := by
        rcases hk with hk | hk
        · exact Or.inl hk
        · exact Or.inr fun hm => hk (List.mem_cons_of_mem _ hm)
      simp only [getMatchLoop] at h
      split at h
      · next hc =>
          split at h
          · next v hv =>
              rw [ih _ _ _ h hk2, put_lookup]
              have : ¬ k = name := by
                rcases hk with hk | hk
                · intro e; subst e; subst hk; simp at hc
                · intro e; exact hk (e ▸ List.mem_cons_self _ _)
              simp [this]
          · simp at h
      · exact ih _ _ _ h hk2

theorem getMatchLoop_last (matched : List String) :
    ∀ (names : List String) (i j : Nat) (result m : StrMap) (name : String),
      i ≠ 0 → getMatchLoop matched i names result = some m →
      names.get? j = some name → name ≠ "" →
      (∀ j1, j < j1 → names.get? j1 ≠ some name) →
      ∃ v, matched.get? (i + j) = some v ∧ m.lookup name = some v := by
  intro names
  induction names with
  | nil => intro i j result m name _ _ hj; simp at hj
  | cons n names ih =>
      intro i j result m name hi h hj hne hlast
      cases j with
      | zero =>
          simp only [List.get?_cons_zero, Option.some.injEq] at hj
          subst hj
          have hnot : n ∉ names := by
            intro hm
            obtain ⟨j1, hj1⟩ := List.get?_of_mem hm
            exact hlast (j1 + 1) (by omega) (by simpa using hj1)
          simp only [getMatchLoop] at h
          have hc : (i ≠ 0 && n ≠ "") = true := by simp [hi, hne]
          rw [if_pos hc] at h
          split at h
          · next v hv =>
              refine ⟨v, by simpa using hv, ?_⟩
              rw [getMatchLoop_other matched n _ _ _ _ h (Or.inr hnot), put_lookup]
              simp
          · simp at h
      | succ j =>
          simp only [List.get?_cons_succ] at hj
          have hlast2 : ∀ j1, j < j1 → names.get? j1 ≠ some name := by
            intro j1 hj1
            have := hlast (j1 + 1) (by omega)
            simpa using this
          simp only [getMatchLoop] at h
          split at h
          · split at h
            · have := ih (i + 1) j _ m name (by omega) h hj hne hlast2
              simpa [Nat.add_assoc, Nat.add_comm 1 j] using this
            · simp at h
          · have := ih (i + 1) j _ m name (by omega) h hj hne hlast2
            simpa [Nat.add_assoc, Nat.add_comm 1 j] using this

theorem getMatchLoop_keys (matched : List String) :
    ∀ (names : List String) (i : Nat) (result m : StrMap),
      i ≠ 0 → getMatchLoop matched i names result = some m →
      (∀ k, k ∈ m.map Prod.fst ↔ (k ∈ result.map Prod.fst ∨ (k ≠ "" ∧ k ∈ names))) ∧
      ((result.map Prod.fst).Nodup → (m.map Prod.fst).Nodup) := by
  intro names
  induction names with
  | nil =>
      intro i result m _ h
      simp only [getMatchLoop, Option.some.injEq] at h
      subst h
      simp
  | cons n names ih =>
      intro i result m hi h
      simp only [getMatchLoop] at h
      split at h
      · next hc =>
          have hn : n ≠ "" := by simpa [hi] using hc
          split at h
          · next v hv =>
              obtain ⟨h1, h2⟩ := ih (i + 1) _ m (by omega) h
              refine ⟨?_, fun hnd => h2 (put_nodup _ _ _ hnd)⟩
              intro k
              rw [h1, put_keys]
              constructor
              · rintro ((h3 | h3) | h3)
                · subst h3; exact Or.inr ⟨hn, List.mem_cons_self _ _⟩
                · exact Or.inl h3
                · exact Or.inr ⟨h3.1, List.mem_cons_of_mem _ h3.2⟩
              · rintro (h3 | ⟨h3, h4⟩)
                · exact Or.inl (Or.inr h3)
                · rcases List.mem_cons.1 h4 with h5 | h5
                  · exact Or.inl (Or.inl h5)
                  · exact Or.inr ⟨h3, h5⟩
          · simp at h
      · next hc =>
          have hn : n = "" := by simpa [hi] using hc
          obtain ⟨h1, h2⟩ := ih (i + 1) _ m (by omega) h
          refine ⟨?_, h2⟩
          intro k
          rw [h1]
          constructor
          · rintro (h3 | h3)
            · exact Or.inl h3
            · exact Or.inr ⟨h3.1, List.mem_cons_of_mem _ h3.2⟩
          · rintro (h3 | ⟨h3, h4⟩)
            · exact Or.inl h3
            · rcases List.mem_cons.1 h4 with h5 | h5
              · subst h5; exact absurd hn h3
              · exact Or.inr ⟨h3, h5⟩

/-- C8 (as amended): `getMatchList` never fails.  For a filename that does not
match, the map is empty and `extractNameParts` returns two empty strings.  For
one that matches, the map has exactly one entry per distinct non-empty group
name, and the value under a name is the text `FindStringSubmatch` reports for
the last group that bears it (the empty string if that group took no part). -/
theorem getMatchList_entries (re : Regexp) (str : String) :
    (re.MatchString str = false →
      getMatchList re str = some [] ∧ extractNameParts str re = some ("", "")) ∧
    (re.MatchString str = true →
      ∃ matched m, re.FindStringSubmatch str = some matched ∧
        matched.length = re.SubexpNames.length ∧
        getMatchList re str = some m ∧
        (m.map Prod.fst).Nodup ∧
        (∀ k, k ∈ m.map Prod.fst ↔ (k ≠ "" ∧ k ∈ re.SubexpNames)) ∧
        (∀ i name, re.SubexpNames.get? i = some name → name ≠ "" →
          (∀ j, i < j → re.SubexpNames.get? j ≠ some name) →
          ∃ v, matched.get? i = some v ∧ m.lookup name = some v)) := by
  constructor
  · intro h
    have h1 : getMatchList re str = some [] := by simp [getMatchList, h]
    exact ⟨h1, by simp [extractNameParts, h1, StrMap.get]⟩
  · intro h
    have hf : ∃ matched, findFrom re str.data = some matched := by
      simpa [Regexp.MatchString, Option.isSome_iff_exists] using h
    obtain ⟨matched, hm⟩ := hf
    have hlen : matched.length = re.NumSubexp + 1 := findFrom_length hm
    have hloop : getMatchList re str = getMatchLoop matched 1 re.capNames [] := by
      simp [getMatchList, h, Regexp.FindStringSubmatch, hm, Regexp.SubexpNames, getMatchLoop]
    obtain ⟨m, hmm⟩ := getMatchLoop_total matched re.capNames 1 []
      (by rw [capNames_length, hlen]; omega)
    obtain ⟨hk, hnd⟩ := getMatchLoop_keys matched re.capNames 1 [] m (by omega) hmm
    refine ⟨matched, m, hm, ?_, hloop.trans hmm, hnd (by simp), ?_, ?_⟩
    · simp [Regexp.SubexpNames, capNames_length, hlen]
    · intro k
      rw [hk]
      simp only [List.map_nil, List.not_mem_nil, false_or, Regexp.SubexpNames, List.mem_cons]
      constructor
      · rintro ⟨h1, h2⟩; exact ⟨h1, Or.inr h2⟩
      · rintro ⟨h1, h2 | h2⟩
        · exact absurd h2 h1
        · exact ⟨h1, h2⟩
    · intro i name hi hne hlast
      cases i with
      | zero =>
          simp only [Regexp.SubexpNames, List.get?_cons_zero, Option.some.injEq] at hi
          exact absurd hi.symm hne
      | succ j =>
          simp only [Regexp.SubexpNames, List.get?_cons_succ] at hi
          have hlast2 : ∀ j1, j < j1 → re.capNames.get? j1 ≠ some name := by
            intro j1 hj1
            have := hlast (j1 + 1) (by omega)
            simpa [Regexp.SubexpNames] using this
          have := getMatchLoop_last matched re.capNames 1 j [] m name (by omega) hmm hi hne hlast2
          simpa [Nat.add_comm 1 j] using this

theorem getMatchList_entries_witness :
    ∃ matched m, policyPattern.FindStringSubmatch "Security.sales_orders.sql" = some matched ∧
        matched.length = policyPattern.SubexpNames.length ∧
        getMatchList policyPattern "Security.sales_orders.sql" = some m ∧
        (m.map Prod.fst).Nodup ∧
        (∀ k, k ∈ m.map Prod.fst ↔ (k ≠ "" ∧ k ∈ policyPattern.SubexpNames)) ∧
        (∀ i name, policyPattern.SubexpNames.get? i = some name → name ≠ "" →
          (∀ j, i < j → policyPattern.SubexpNames.get? j ≠ some name) →
          ∃ v, matched.get? i = some v ∧ m.lookup name = some v) :=
  (getMatchList_entries policyPattern "Security.sales_orders.sql").2 (by decide)

/-- C8, the claim as stated fails: with `(?P<schema>a)(?P<schema>b)` on `ab`
there are two named groups and a single entry, and the text `a` of the first
group is not in the map. -/
theorem getMatchList_same_name_twice :
    sameNameTwice.SubexpNames = ["", "schema", "schema"] ∧
    sameNameTwice.FindStringSubmatch "ab" = some ["ab", "a", "b"] ∧
    getMatchList sameNameTwice "ab" = some [("schema", "b")] := by
  decide

/-! ## The naming rules -/

theorem dropLiteral_eq_some (l : List Char) :
    ∀ (inp r : List Char), dropLiteral l inp = some r ↔ inp = l ++ r := by
  induction l with
  | nil => intro inp r; simp [dropLiteral, eq_comm]
  | cons c l ih =>
      intro inp r
      cases inp with
      | nil => simp [dropLiteral]
      | cons d inp =>
          by_cases h : c = d
          · subst h; simp [dropLiteral, ih]
          · have : ¬ d = c := fun e => h e.symm
            simp [dropLiteral, h, this]

theorem dropLiteral_append (l r : List Char) : dropLiteral l (l ++ r) = some r :=
  (dropLiteral_eq_some l _ _).2 rfl

theorem runs_nameRule (lead inp : List Char) (caps : List String) :
    runs (nameRule lead) 1 (inp, caps) =
      match dropLiteral lead inp with
      | none => []
      | some z => (plusRuns isWord z).flatMap (tailThreads z caps) := by
  simp only [nameRule, runs, Regexp.NumSubexp]
  cases hd : dropLiteral lead inp with
  | none => simp
  | some z =>
      simp only [List.flatMap_cons, List.flatMap_nil, List.append_nil, List.map_map,
        List.flatMap_map]
      congr 1
      funext r1
      simp only [tailThreads, Function.comp]
      cases hd1 : dropLiteral ['_'] r1 with
      | none => simp
      | some z2 =>
          simp only [List.flatMap_cons, List.flatMap_nil, List.append_nil, List.map_map,
            List.flatMap_map]
          have hw : inClass perlWord = isWord := rfl
          rw [hw]
          congr 1
          funext r2
          cases dropLiteral ['.', 's', 'q', 'l'] r2 <;> rfl

theorem consumed_append (w r : List Char) : consumed (w ++ r) r = String.mk w := by
  simp [consumed]

theorem plusRuns_sound (p : Char → Bool) :
    ∀ (inp r : List Char), r ∈ plusRuns p inp →
      ∃ w, w ≠ [] ∧ (∀ c ∈ w, p c = true) ∧ inp = w ++ r := by
  intro inp
  induction inp with
  | nil => intro r h; simp [plusRuns] at h
  | cons c t ih =>
      intro r h
      simp only [plusRuns] at h
      split at h
      · next hc =>
          rcases List.mem_append.1 h with h1 | h1
          · obtain ⟨w, _, hw, rfl⟩ := ih r h1
            refine ⟨c :: w, by simp, ?_, rfl⟩
            intro d hd
            rcases List.mem_cons.1 hd with e | e
            · rw [e]; exact hc
            · exact hw d e
          · simp only [List.mem_singleton] at h1
            subst h1
            exact ⟨[c], by simp, by simpa using hc, rfl⟩
      · simp at h

theorem plusRuns_split (p : Char → Bool) (R : List Char) :
    ∀ (w : List Char), w ≠ [] → (∀ c ∈ w, p c = true) →
      ∃ more, plusRuns p (w ++ R) = plusRuns p R ++ R :: more := by
  intro w
  induction w with
  | nil => intro h; exact absurd rfl h
  | cons c t ih =>
      intro _ hw
      have hc : p c = true := hw c (List.mem_cons_self _ _)
      cases t with
      | nil => exact ⟨[], by simp [plusRuns, hc]⟩
      | cons d t =>
          obtain ⟨more, hm⟩ := ih (by simp) (fun e he => hw e (List.mem_cons_of_mem _ he))
          refine ⟨more ++ [d :: t ++ R], ?_⟩
          have : plusRuns p (c :: (d :: t) ++ R) = plusRuns p (d :: t ++ R) ++ [d :: t ++ R] := by
            simp [plusRuns, hc]
          rw [this, hm]
          simp

theorem plusRuns_complete (p : Char → Bool) (w r : List Char) (h : w ≠ [])
    (hw : ∀ c ∈ w, p c = true) : r ∈ plusRuns p (w ++ r) := by
  obtain ⟨more, hm⟩ := plusRuns_split p r w h hw
  rw [hm]
  simp

/-- A greedy run followed by something that only goes on after a rune `d`
outside the class: the run is the longest one. -/
theorem flatMap_plusRuns_stop {β : Type} (p : Char → Bool) (f : List Char → List β)
    (d : Char) (x : List Char) (hd : p d = false)
    (hf : ∀ r, r.head? ≠ some d → f r = []) :
    ∀ (w : List Char), w ≠ [] → (∀ c ∈ w, p c = true) →
      (plusRuns p (w ++ d :: x)).flatMap f = f (d :: x) := by
  have h0 : plusRuns p (d :: x) = [] := by simp [plusRuns, hd]
  intro w
  induction w with
  | nil => intro h; exact absurd rfl h
  | cons c t ih =>
      intro _ hw
      have hc : p c = true := hw c (List.mem_cons_self _ _)
      cases t with
      | nil => simp [plusRuns, hc, hd]
      | cons e t =>
          have he : p e = true := hw e (by simp)
          have hne : e ≠ d := by
            intro h; rw [h, hd] at he; exact Bool.false_ne_true he
          have := ih (by simp) (fun a ha => hw a (List.mem_cons_of_mem _ ha))
          have h2 : plusRuns p (c :: (e :: t) ++ d :: x)
              = plusRuns p (e :: t ++ d :: x) ++ [e :: t ++ d :: x] := by
            simp [plusRuns, hc]
          rw [h2, List.flatMap_append, this]
          have h3 : f (e :: t ++ d :: x) = [] := hf _ (by simp [hne])
          rw [List.flatMap_cons, h3]
          simp

theorem isWord_dot : isWord '.' = false := by decide

theorem isWord_underscore : isWord '_' = true := by decide

theorem tailThreads_of_shape (z : List Char) (caps : List String) (o x : List Char)
    (ho : o ≠ []) (hw : ∀ c ∈ o, isWord c = true) :
    tailThreads z caps ('_' :: (o ++ '.' :: 's' :: 'q' :: 'l' :: x))
      = [(x, (caps.set 1 (consumed z ('_' :: (o ++ '.' :: 's' :: 'q' :: 'l' :: x)))).set 2
          (String.mk o))] := by
  have h1 : dropLiteral ['_'] ('_' :: (o ++ '.' :: 's' :: 'q' :: 'l' :: x))
      = some (o ++ '.' :: 's' :: 'q' :: 'l' :: x) := dropLiteral_append ['_'] _
  simp only [tailThreads, h1]
  rw [flatMap_plusRuns_stop isWord _ '.' ('s' :: 'q' :: 'l' :: x) isWord_dot _ o ho hw]
  · have h2 : dropLiteral ['.', 's', 'q', 'l'] ('.' :: 's' :: 'q' :: 'l' :: x) = some x :=
      dropLiteral_append ['.', 's', 'q', 'l'] x
    have h3 : consumed (o ++ '.' :: 's' :: 'q' :: 'l' :: x) ('.' :: 's' :: 'q' :: 'l' :: x)
        = String.mk o := consumed_append o _
    simp only [h2, h3]
  · intro r hr
    cases r with
    | nil => simp [dropLiteral]
    | cons c r =>
        have : ¬ '.' = c := by
          intro e; apply hr; simp [← e]
        simp [dropLiteral, this]

theorem tailThreads_sound (z : List Char) (caps : List String) (r1 : List Char) (t : Thread)
    (h : t ∈ tailThreads z caps r1) :
    ∃ o x, o ≠ [] ∧ (∀ c ∈ o, isWord c = true) ∧
      r1 = '_' :: (o ++ '.' :: 's' :: 'q' :: 'l' :: x) ∧
      t = (x, (caps.set 1 (consumed z r1)).set 2 (String.mk o)) := by
  unfold tailThreads at h
  split at h
  · simp at h
  · next z2 hz2 =>
      simp only [List.mem_flatMap] at h
      obtain ⟨r2, hr2, ht⟩ := h
      obtain ⟨o, ho, hw, hz⟩ := plusRuns_sound isWord z2 r2 hr2
      split at ht
      · simp at ht
      · next r3 hr3 =>
          refine ⟨o, r3, ho, hw, ?_, ?_⟩
          · rw [(dropLiteral_eq_some _ _ _).1 hz2, hz, (dropLiteral_eq_some _ _ _).1 hr3]
            simp
          · simp only [List.mem_singleton] at ht
            rw [ht, hz, consumed_append]

theorem tailThreads_no_underscore (z : List Char) (caps : List String) (r1 : List Char)
    (h : r1.head? ≠ some '_') : tailThreads z caps r1 = [] := by
  cases hl : tailThreads z caps r1 with
  | nil => rfl
  | cons t ts =>
      exfalso
      have ht : t ∈ tailThreads z caps r1 := by rw [hl]; exact List.mem_cons_self _ _
      obtain ⟨o, x, _, _, hr, _⟩ := tailThreads_sound z caps r1 t ht
      apply h
      rw [hr]
      rfl

theorem nameRule_sound (lead inp : List Char) (caps : List String) (t : Thread)
    (h : t ∈ runs (nameRule lead) 1 (inp, caps)) :
    ∃ s o x, s ≠ [] ∧ (∀ c ∈ s, isWord c = true) ∧ o ≠ [] ∧ (∀ c ∈ o, isWord c = true) ∧
      inp = lead ++ (s ++ '_' :: (o ++ '.' :: 's' :: 'q' :: 'l' :: x)) := by
  rw [runs_nameRule] at h
  split at h
  · simp at h
  · next z hz =>
      simp only [List.mem_flatMap] at h
      obtain ⟨r1, hr1, ht⟩ := h
      obtain ⟨s, hs, hsw, hzs⟩ := plusRuns_sound isWord z r1 hr1
      obtain ⟨o, x, ho, how, hr, _⟩ := tailThreads_sound z caps r1 t ht
      refine ⟨s, o, x, hs, hsw, ho, how, ?_⟩
      rw [(dropLiteral_eq_some _ _ _).1 hz, hzs, hr]

theorem nameRule_complete (lead : List Char) (caps : List String) (s o x : List Char)
    (hs : s ≠ []) (hsw : ∀ c ∈ s, isWord c = true) (ho : o ≠ [])
    (how : ∀ c ∈ o, isWord c = true) :
    runs (nameRule lead) 1 (lead ++ (s ++ '_' :: (o ++ '.' :: 's' :: 'q' :: 'l' :: x)), caps)
      ≠ [] := by
  rw [runs_nameRule, dropLiteral_append]
  intro h
  have h1 := plusRuns_complete isWord s ('_' :: (o ++ '.' :: 's' :: 'q' :: 'l' :: x)) hs hsw
  have h2 := tailThreads_of_shape (s ++ '_' :: (o ++ '.' :: 's' :: 'q' :: 'l' :: x)) caps o x ho how
  have h3 := (List.flatMap_eq_nil_iff.1 h) _ h1
  rw [h2] at h3
  simp at h3

theorem matchHere_isSome_iff (re : Regexp) (inp : List Char) :
    (matchHere re inp).isSome = true ↔
      runs re 1 (inp, List.replicate (re.NumSubexp + 1) "") ≠ [] := by
  unfold matchHere
  split <;> simp_all

theorem findFrom_isSome_mono (re1 re2 : Regexp)
    (h : ∀ suf, (matchHere re1 suf).isSome = true → (matchHere re2 suf).isSome = true) :
    ∀ inp, (findFrom re1 inp).isSome = true → (findFrom re2 inp).isSome = true := by
  intro inp
  induction inp with
  | nil => exact h []
  | cons c t ih =>
      intro h1
      simp only [findFrom] at h1 ⊢
      cases h2 : matchHere re1 (c :: t) with
      | some m =>
          have := h (c :: t) (by simp [h2])
          obtain ⟨m2, hm2⟩ := Option.isSome_iff_exists.1 this
          simp [hm2]
      | none =>
          rw [h2] at h1
          have := ih h1
          cases matchHere re2 (c :: t) with
          | some m => simp
          | none => simpa using this

theorem isWord_fnLead : ∀ c ∈ "fn_RLS_Read_".data, isWord c = true := by decide

theorem function_matches_policy_here (suf : List Char)
    (h : (matchHere functionPattern suf).isSome = true) :
    (matchHere policyPattern suf).isSome = true := by
  rw [matchHere_isSome_iff] at h ⊢
  obtain ⟨t, ht⟩ := List.exists_mem_of_ne_nil _ h
  obtain ⟨s, o, x, hs, hsw, ho, how, hinp⟩ := nameRule_sound _ _ _ _ ht
  have hshape : suf = "Security.".data ++
      (("fn_RLS_Read_".data ++ s) ++ '_' :: (o ++ '.' :: 's' :: 'q' :: 'l' :: x)) := by
    rw [hinp]; simp
  rw [hshape]
  apply nameRule_complete _ _ _ o x _ _ ho how
  · simp
  · intro c hc
    rcases List.mem_append.1 hc with h1 | h1
    · exact isWord_fnLead c h1
    · exact hsw c h1

theorem append_split_stop (p : Char → Bool) (d : Char) (hd : p d = false) :
    ∀ (w o r y : List Char), (∀ c ∈ w, p c = true) → w ++ r = o ++ d :: y →
      ∃ a, o = w ++ a ∧ r = a ++ d :: y := by
  intro w
  induction w with
  | nil => intro o r y _ h; exact ⟨o, rfl, by simpa using h⟩
  | cons c w ih =>
      intro o r y hw h
      have hc : p c = true := hw c (List.mem_cons_self _ _)
      cases o with
      | nil =>
          simp only [List.cons_append, List.nil_append, List.cons.injEq] at h
          rw [h.1, hd] at hc
          exact absurd hc Bool.false_ne_true
      | cons e o =>
          simp only [List.cons_append, List.cons.injEq] at h
          obtain ⟨a, ha, hr⟩ := ih o r y (fun b hb => hw b (List.mem_cons_of_mem _ hb)) h.2
          exact ⟨a, by rw [h.1, ha]; rfl, hr⟩

theorem flatMap_head_mem {α β : Type} (f : α → List β) (A : List α) (b : α) (B : List α)
    (t : β) (ts : List β) (hb : f b ≠ []) (h : (A ++ b :: B).flatMap f = t :: ts) :
    ∃ r ∈ A ++ [b], t ∈ f r := by
  rw [List.flatMap_append, List.flatMap_cons] at h
  cases hA : A.flatMap f with
  | nil =>
      rw [hA] at h
      cases hfb : f b with
      | nil => exact absurd hfb hb
      | cons t1 ts1 =>
          rw [hfb] at h
          simp only [List.nil_append, List.cons_append, List.cons.injEq] at h
          exact ⟨b, by simp, by rw [hfb, h.1]; exact List.mem_cons_self _ _⟩
  | cons a as =>
      rw [hA] at h
      simp only [List.cons_append, List.cons.injEq] at h
      have ha : t ∈ A.flatMap f := by rw [hA, h.1]; exact List.mem_cons_self _ _
      obtain ⟨r, hr, htr⟩ := List.mem_flatMap.1 ha
      exact ⟨r, by simp [hr], htr⟩

theorem findFrom_of_matchHere {re : Regexp} {inp : List Char} {m : List String}
    (h : matchHere re inp = some m) : findFrom re inp = some m := by
  cases inp with
  | nil => exact h
  | cons c t => simp [findFrom, h]

/-- The greedy schema group: when the object part holds no underscore, the
match at the front of the name splits it at its last underscore. -/
theorem matchHere_nameRule (lead s o x : List Char)
    (hs : s ≠ []) (hsw : ∀ c ∈ s, isWord c = true) (ho : o ≠ [])
    (how : ∀ c ∈ o, isWord c = true) (hno : '_' ∉ o) :
    matchHere (nameRule lead) (lead ++ (s ++ '_' :: (o ++ '.' :: 's' :: 'q' :: 'l' :: x)))
      = some [String.mk (lead ++ (s ++ '_' :: (o ++ ['.', 's', 'q', 'l']))),
          String.mk s, String.mk o] := by
  have hn : (nameRule lead).NumSubexp + 1 = 3 := rfl
  unfold matchHere
  simp only [hn, runs_nameRule, dropLiteral_append]
  obtain ⟨more, hm⟩ := plusRuns_split isWord ('_' :: (o ++ '.' :: 's' :: 'q' :: 'l' :: x)) s hs hsw
  have hA : (plusRuns isWord ('_' :: (o ++ '.' :: 's' :: 'q' :: 'l' :: x))).flatMap
      (tailThreads (s ++ '_' :: (o ++ '.' :: 's' :: 'q' :: 'l' :: x)) (List.replicate 3 "")) = [] := by
    apply List.flatMap_eq_nil_iff.2
    intro r hr
    apply tailThreads_no_underscore
    obtain ⟨w, hw, hww, hwr⟩ := plusRuns_sound isWord _ r hr
    cases w with
    | nil => exact absurd rfl hw
    | cons c w =>
        simp only [List.cons_append, List.cons.injEq] at hwr
        obtain ⟨a, ha, hra⟩ := append_split_stop isWord '.' isWord_dot w o r _
          (fun b hb => hww b (List.mem_cons_of_mem _ hb)) hwr.2.symm
        rw [hra]
        cases a with
        | nil => simp
        | cons e a =>
            have he : e ∈ o := by rw [ha]; simp
            have : e ≠ '_' := fun h => hno (h ▸ he)
            simp [this]
  rw [hm, List.flatMap_append, hA, List.flatMap_cons,
    tailThreads_of_shape _ _ o x ho how, consumed_append]
  have hw : consumed (lead ++ (s ++ '_' :: (o ++ '.' :: 's' :: 'q' :: 'l' :: x))) x
      = String.mk (lead ++ (s ++ '_' :: (o ++ ['.', 's', 'q', 'l']))) := by
    have := consumed_append (lead ++ (s ++ '_' :: (o ++ ['.', 's', 'q', 'l']))) x
    simpa using this
  simp [hw, List.replicate]

/-- The greedy schema group takes at least every word rune in front of an
underscore that can start the rest of the rule. -/
theorem matchHere_nameRule_lead (lead w o x : List Char)
    (hs : w ≠ []) (hsw : ∀ c ∈ w, isWord c = true) (ho : o ≠ [])
    (how : ∀ c ∈ o, isWord c = true) :
    ∃ whole u o1,
      matchHere (nameRule lead) (lead ++ (w ++ '_' :: (o ++ '.' :: 's' :: 'q' :: 'l' :: x)))
        = some [whole, String.mk (w ++ u), o1] := by
  have hn : (nameRule lead).NumSubexp + 1 = 3 := rfl
  unfold matchHere
  simp only [hn, runs_nameRule, dropLiteral_append]
  obtain ⟨more, hm⟩ := plusRuns_split isWord ('_' :: (o ++ '.' :: 's' :: 'q' :: 'l' :: x)) w hs hsw
  rw [hm]
  have hfb := tailThreads_of_shape (w ++ '_' :: (o ++ '.' :: 's' :: 'q' :: 'l' :: x))
    (List.replicate 3 "") o x ho how
  cases hL : (plusRuns isWord ('_' :: (o ++ '.' :: 's' :: 'q' :: 'l' :: x)) ++
      ('_' :: (o ++ '.' :: 's' :: 'q' :: 'l' :: x)) :: more).flatMap
      (tailThreads (w ++ '_' :: (o ++ '.' :: 's' :: 'q' :: 'l' :: x)) (List.replicate 3 "")) with
  | nil =>
      exfalso
      have := (List.flatMap_eq_nil_iff.1 hL) ('_' :: (o ++ '.' :: 's' :: 'q' :: 'l' :: x)) (by simp)
      rw [hfb] at this
      simp at this
  | cons t ts =>
      obtain ⟨r, hr, htr⟩ := flatMap_head_mem _ _ _ _ t ts (by rw [hfb]; simp) hL
      have hu : ∃ u, '_' :: (o ++ '.' :: 's' :: 'q' :: 'l' :: x) = u ++ r := by
        rcases List.mem_append.1 hr with h1 | h1
        · obtain ⟨u, _, _, hu⟩ := plusRuns_sound isWord _ r h1
          exact ⟨u, hu⟩
        · simp only [List.mem_singleton] at h1
          exact ⟨[], by simp [h1]⟩
      obtain ⟨u, hu⟩ := hu
      obtain ⟨o1, x1, _, _, _, ht⟩ := tailThreads_sound _ _ r t htr
      have hc : consumed (w ++ '_' :: (o ++ '.' :: 's' :: 'q' :: 'l' :: x)) r
          = String.mk (w ++ u) := by
        rw [hu, ← List.append_assoc, consumed_append]
      rw [hc] at ht
      refine ⟨consumed (lead ++ (w ++ '_' :: (o ++ '.' :: 's' :: 'q' :: 'l' :: x))) t.1, u,
        String.mk o1, ?_⟩
      simp [ht, List.replicate]

theorem extractNameParts_of_find (lead : List Char) (f whole a b : String)
    (h : findFrom (nameRule lead) f.data = some [whole, a, b]) :
    (nameRule lead).MatchString f = true ∧
      extractNameParts f (nameRule lead) = some (a, b) := by
  have hm : (nameRule lead).MatchString f = true := by simp [Regexp.MatchString, h]
  have hnames : (nameRule lead).SubexpNames = ["", "schema", "object"] := rfl
  refine ⟨hm, ?_⟩
  simp [extractNameParts, getMatchList, hm, Regexp.FindStringSubmatch, h, hnames,
    getMatchLoop, StrMap.put, StrMap.get, List.lookup]

theorem matchHere_nameRule_shape (lead inp : List Char) (m : List String)
    (h : matchHere (nameRule lead) inp = some m) :
    ∃ w o x whole, inp = lead ++ (w ++ '_' :: (o ++ '.' :: 's' :: 'q' :: 'l' :: x)) ∧
      m = [whole, String.mk w, String.mk o] := by
  have hn : (nameRule lead).NumSubexp + 1 = 3 := rfl
  unfold matchHere at h
  rw [hn] at h
  split at h
  · next t rest heq =>
      have ht : t ∈ runs (nameRule lead) 1 (inp, List.replicate 3 "") := by
        rw [heq]; exact List.mem_cons_self _ _
      rw [runs_nameRule] at ht
      split at ht
      · simp at ht
      · next z hz =>
          obtain ⟨r1, hr1, htr⟩ := List.mem_flatMap.1 ht
          obtain ⟨w, _, _, hzw⟩ := plusRuns_sound isWord z r1 hr1
          obtain ⟨o, x, _, _, hr, hte⟩ := tailThreads_sound z _ r1 t htr
          refine ⟨w, o, x, consumed inp t.1, ?_, ?_⟩
          · rw [(dropLiteral_eq_some _ _ _).1 hz, hzw, hr]
          · simp only [Option.some.injEq] at h
            rw [← h, hte, hzw, consumed_append]
            simp [List.replicate]
  · simp at h

theorem findFrom_nameRule_shape (lead : List Char) :
    ∀ (inp : List Char) (m : List String), findFrom (nameRule lead) inp = some m →
      ∃ front w o x whole,
        inp = front ++ (lead ++ (w ++ '_' :: (o ++ '.' :: 's' :: 'q' :: 'l' :: x))) ∧
        m = [whole, String.mk w, String.mk o] := by
  intro inp
  induction inp with
  | nil =>
      intro m h
      obtain ⟨w, o, x, whole, h1, h2⟩ := matchHere_nameRule_shape lead [] m h
      simp at h1
  | cons c t ih =>
      intro m h
      simp only [findFrom] at h
      split at h
      · next m1 heq =>
          simp only [Option.some.injEq] at h
          subst h
          obtain ⟨w, o, x, whole, h1, h2⟩ := matchHere_nameRule_shape lead _ _ heq
          exact ⟨[], w, o, x, whole, by simpa using h1, h2⟩
      · obtain ⟨front, w, o, x, whole, h1, h2⟩ := ih m h
        exact ⟨c :: front, w, o, x, whole, by rw [h1]; rfl, h2⟩

theorem utf8ByteSize_eq (s : String) : s.utf8ByteSize = String.utf8Len s.data := by
  cases s
  rfl

/-- The table name built from the extracted parts is never longer, in bytes,
than the filename they were extracted from. -/
theorem table_name_bytes (lead : List Char) (name schema object : String)
    (hm : (nameRule lead).MatchString name = true)
    (he : extractNameParts name (nameRule lead) = some (schema, object)) :
    (schema ++ "." ++ object ++ ".sql").utf8ByteSize ≤ name.utf8ByteSize := by
  have hf : ∃ m, findFrom (nameRule lead) name.data = some m := by
    simpa [Regexp.MatchString, Option.isSome_iff_exists] using hm
  obtain ⟨m, hfm⟩ := hf
  obtain ⟨front, w, o, x, whole, hshape, hmm⟩ := findFrom_nameRule_shape lead _ _ hfm
  rw [hmm] at hfm
  have h2 := (extractNameParts_of_find lead name whole _ _ hfm).2
  rw [he] at h2
  simp only [Option.some.injEq, Prod.mk.injEq] at h2
  rw [h2.1, h2.2, utf8ByteSize_eq, utf8ByteSize_eq name, hshape]
  have c1 : Char.utf8Size '.' = 1 := by decide
  have c2 : Char.utf8Size '_' = 1 := by decide
  have c3 : Char.utf8Size 's' = 1 := by decide
  have c4 : Char.utf8Size 'q' = 1 := by decide
  have c5 : Char.utf8Size 'l' = 1 := by decide
  have hd : ("." : String).data = ['.'] := rfl
  have hs : (".sql" : String).data = ['.', 's', 'q', 'l'] := rfl
  simp only [String.data_append, hd, hs, String.utf8Len_append, String.utf8Len_cons,
    String.utf8Len_nil, c1, c2, c3, c4, c5]
  omega

theorem data_ne_nil {s : String} (h : s ≠ "") : s.data ≠ [] := by
  intro hd
  apply h
  cases s with
  | mk d => simp only at hd; subst hd; rfl

/-- C2 (as amended): for non-empty strings `schema` and `object` of ASCII word
characters where `object` holds no underscore, the policy rule matches
`Security.<schema>_<object>.sql` and `extractNameParts` returns exactly
`(schema, object)`, so the table looked up is `<schema>.<object>.sql`. -/
theorem extractNameParts_policy (schema object : String)
    (hs : schema ≠ "") (hsw : ∀ c ∈ schema.data, isWord c = true)
    (ho : object ≠ "") (how : ∀ c ∈ object.data, isWord c = true)
    (hno : '_' ∉ object.data) :
    policyPattern.MatchString ("Security." ++ schema ++ "_" ++ object ++ ".sql") = true ∧
    extractNameParts ("Security." ++ schema ++ "_" ++ object ++ ".sql") policyPattern
      = some (schema, object) ∧
    ∀ (fs : FS) (tableDir : List String),
      tableExists fs tableDir schema object
        = fileExists fs (tableDir ++ [schema ++ "." ++ object ++ ".sql"]) := by
  have hdata : ("Security." ++ schema ++ "_" ++ object ++ ".sql").data
      = "Security.".data ++ (schema.data ++ '_' :: (object.data ++ '.' :: 's' :: 'q' :: 'l' :: [])) := by
    simp [String.data_append]
  have hm := matchHere_nameRule "Security.".data schema.data object.data []
    (data_ne_nil hs) hsw (data_ne_nil ho) how hno
  rw [← hdata] at hm
  have hf := findFrom_of_matchHere hm
  have := extractNameParts_of_find "Security.".data _ _ _ _ hf
  exact ⟨this.1, this.2, fun _ _ => rfl⟩

theorem extractNameParts_policy_witness :
    policyPattern.MatchString ("Security." ++ "sales" ++ "_" ++ "orders" ++ ".sql") = true ∧
    extractNameParts ("Security." ++ "sales" ++ "_" ++ "orders" ++ ".sql") policyPattern
      = some ("sales", "orders") ∧
    ∀ (fs : FS) (tableDir : List String),
      tableExists fs tableDir "sales" "orders"
        = fileExists fs (tableDir ++ ["sales" ++ "." ++ "orders" ++ ".sql"]) :=
  extractNameParts_policy "sales" "orders" (by decide) (by decide) (by decide) (by decide)
    (by decide)

/-- C2, the claim as stated fails: for schema `a` and object `b_c`, both made
of word characters, the greedy schema group takes `a_b` and leaves `c`. -/
theorem greedy_schema_split :
    (∀ c ∈ "a".data, isWord c = true) ∧ (∀ c ∈ "b_c".data, isWord c = true) ∧
    extractNameParts ("Security." ++ "a" ++ "_" ++ "b_c" ++ ".sql") policyPattern
      = some ("a_b", "c") ∧
    extractNameParts ("Security." ++ "a" ++ "_" ++ "b_c" ++ ".sql") policyPattern
      ≠ some ("a", "b_c") := by
  decide

/-- C10: every filename the function rule matches is matched by the policy
rule too; and for a function file named by the convention,
`Security.fn_RLS_Read_<schema>_<object>.sql`, both rules match and the schema
the policy rule extracts begins with `fn_RLS_Read_`. -/
theorem function_rule_subsumed :
    (∀ f : String, functionPattern.MatchString f = true → policyPattern.MatchString f = true) ∧
    (∀ schema object : String,
      schema ≠ "" → (∀ c ∈ schema.data, isWord c = true) →
      object ≠ "" → (∀ c ∈ object.data, isWord c = true) →
      functionPattern.MatchString
        ("Security.fn_RLS_Read_" ++ schema ++ "_" ++ object ++ ".sql") = true ∧
      policyPattern.MatchString
        ("Security.fn_RLS_Read_" ++ schema ++ "_" ++ object ++ ".sql") = true ∧
      ∃ more obj,
        extractNameParts ("Security.fn_RLS_Read_" ++ schema ++ "_" ++ object ++ ".sql")
          policyPattern = some ("fn_RLS_Read_" ++ schema ++ more, obj)) := by
  have h1 : ∀ f : String, functionPattern.MatchString f = true →
      policyPattern.MatchString f = true := fun f hf =>
    findFrom_isSome_mono functionPattern policyPattern function_matches_policy_here f.data hf
  refine ⟨h1, ?_⟩
  intro schema object hs hsw ho how
  have hfn : functionPattern.MatchString
      ("Security.fn_RLS_Read_" ++ schema ++ "_" ++ object ++ ".sql") = true := by
    have hdata : ("Security.fn_RLS_Read_" ++ schema ++ "_" ++ object ++ ".sql").data
        = "Security.fn_RLS_Read_".data ++
          (schema.data ++ '_' :: (object.data ++ '.' :: 's' :: 'q' :: 'l' :: [])) := by
      simp [String.data_append]
    have hr := nameRule_complete "Security.fn_RLS_Read_".data
      (List.replicate ((nameRule "Security.fn_RLS_Read_".data).NumSubexp + 1) "")
      schema.data object.data [] (data_ne_nil hs) hsw (data_ne_nil ho) how
    rw [← hdata] at hr
    have hsome := (matchHere_isSome_iff functionPattern _).2 hr
    obtain ⟨m, hm⟩ := Option.isSome_iff_exists.1 hsome
    unfold Regexp.MatchString
    rw [findFrom_of_matchHere hm]
    rfl
  refine ⟨hfn, h1 _ hfn, ?_⟩
  have hdata : ("Security.fn_RLS_Read_" ++ schema ++ "_" ++ object ++ ".sql").data
      = "Security.".data ++ (("fn_RLS_Read_".data ++ schema.data) ++
          '_' :: (object.data ++ '.' :: 's' :: 'q' :: 'l' :: [])) := by
    simp [String.data_append]
  obtain ⟨whole, u, o1, hm⟩ := matchHere_nameRule_lead "Security.".data
    ("fn_RLS_Read_".data ++ schema.data) object.data [] (by simp)
    (by
      intro c hc
      rcases List.mem_append.1 hc with h | h
      · exact isWord_fnLead c h
      · exact hsw c h)
    (data_ne_nil ho) how
  rw [← hdata] at hm
  have := (extractNameParts_of_find "Security.".data _ _ _ _ (findFrom_of_matchHere hm)).2
  refine ⟨String.mk u, o1, ?_⟩
  rw [show policyPattern = nameRule "Security.".data from rfl, this]
  congr 2

theorem function_rule_subsumed_witness :
    policyPattern.MatchString "Security.fn_RLS_Read_sales_orders.sql" = true ∧
    ∃ more obj,
      extractNameParts ("Security.fn_RLS_Read_" ++ "sales" ++ "_" ++ "orders" ++ ".sql")
        policyPattern = some ("fn_RLS_Read_" ++ "sales" ++ more, obj) :=
  ⟨function_rule_subsumed.1 "Security.fn_RLS_Read_sales_orders.sql" (by decide),
    (function_rule_subsumed.2 "sales" "orders" (by decide) (by decide) (by decide)
      (by decide)).2.2⟩

/-! ## Directory lookups -/

theorem Node.find_append (name : String) :
    ∀ (dir : List String) (n : Node),
      n.find (dir ++ [name]) =
        match n.find dir with
        | .ok (.dir _ _ true entries) =>
            if NAME_MAX < name.utf8ByteSize then .error .other
            else
              (match entries.lookup name with
               | some m => .ok m
               | none => .error .notExist)
        | .ok _ => .error .other
        | .error e => .error e := by
  intro dir
  induction dir with
  | nil =>
      intro n
      cases n with
      | file size => simp [Node.find]
      | dir size readable searchable entries =>
          cases searchable with
          | true =>
              simp only [List.nil_append, Node.find, if_true]
          | false => simp [Node.find]
  | cons d dir ih =>
      intro n
      cases n with
      | file size => simp [Node.find]
      | dir size readable searchable entries =>
          cases searchable with
          | true =>
              simp only [List.cons_append, Node.find, if_true]
              split
              · rfl
              · cases h : entries.lookup d with
                | none => simp
                | some m => exact ih m
          | false => simp [Node.find]

theorem pathBytes_append (dir : List String) (name : String) :
    pathBytes (dir ++ [name]) = pathBytes dir + (1 + name.utf8ByteSize) := by
  simp [pathBytes]

theorem fileExists_eq (fs : FS) (dir : List String) (name : String)
    (h : obstructed fs dir = false) :
    fileExists fs (dir ++ [name]) = (hasEntry fs dir name || refused fs dir name) := by
  by_cases hp : fs.room < pathBytes (dir ++ [name])
  · simp [fileExists, Stat, FS.find, refused, hp]
  · have hd : ¬ fs.room < pathBytes dir := by
      rw [pathBytes_append] at hp
      omega
    cases hr : fs.root with
    | none => simp [fileExists, Stat, FS.find, hasEntry, refused, hp, hd, hr]
    | some n =>
        simp only [fileExists, Stat, FS.find, hasEntry, refused, obstructed, hp, hd, hr,
          if_false, Node.find_append, decide_False, Bool.false_or] at h ⊢
        cases hf : n.find dir with
        | error e =>
            cases e with
            | notExist => simp
            | other => simp [hf] at h
        | ok m =>
            cases m with
            | file size => simp [hf] at h
            | dir size readable searchable entries =>
                cases searchable with
                | false => simp [hf] at h
                | true =>
                    by_cases hn : NAME_MAX < name.utf8ByteSize
                    · simp [hn]
                    · cases hl : entries.lookup name <;> simp [hn, hl]

theorem fileExists_eq_hasEntry (fs : FS) (dir : List String) (name : String)
    (h : obstructed fs dir = false) (hn : name.utf8ByteSize ≤ NAME_MAX)
    (hp : pathBytes (dir ++ [name]) ≤ fs.room) :
    fileExists fs (dir ++ [name]) = hasEntry fs dir name := by
  rw [fileExists_eq fs dir name h]
  have h1 : ¬ fs.room < pathBytes (dir ++ [name]) := by omega
  have h2 : ¬ NAME_MAX < name.utf8ByteSize := by omega
  simp [refused, h1, h2]

theorem info_Name (name : String) (n : Node) : (n.info name).Name = name := by
  cases n <;> rfl

theorem Stat_ok_fits (fs : FS) (dir : List String) (name : String)
    (h : Stat fs (dir ++ [name]) = none) :
    name.utf8ByteSize ≤ NAME_MAX ∧ pathBytes (dir ++ [name]) ≤ fs.room := by
  by_cases hp : fs.room < pathBytes (dir ++ [name])
  · simp [Stat, FS.find, hp] at h
  · refine ⟨?_, by omega⟩
    cases hr : fs.root with
    | none => simp [Stat, FS.find, hp, hr] at h
    | some n =>
        simp only [Stat, FS.find, hp, hr, if_false, Node.find_append] at h
        by_cases hn : NAME_MAX < name.utf8ByteSize
        · exfalso
          cases hf : n.find dir with
          | error e => simp [hf] at h
          | ok m =>
              cases m with
              | file size => simp [hf] at h
              | dir size readable searchable entries =>
                  cases searchable <;> simp [hf, hn] at h
        · omega

theorem ReadDir_fits (fs : FS) (dir : List String) (files : List FileInfo)
    (h : ReadDir fs dir = .ok files) :
    ∀ f ∈ files, f.Name.utf8ByteSize ≤ NAME_MAX ∧ pathBytes (dir ++ [f.Name]) ≤ fs.room := by
  unfold ReadDir at h
  split at h
  · next size searchable entries hf =>
      split at h
      · next hall =>
          simp only [Except.ok.injEq] at h
          subst h
          intro f hfm
          obtain ⟨e, he, rfl⟩ := List.mem_map.1 hfm
          rw [info_Name]
          have := List.all_eq_true.1 hall e he
          exact Stat_ok_fits fs dir e.1 (by simpa using this)
      · simp at h
  · simp at h
  · simp at h

/-! ## The cross-reference checks -/

theorem getMatchList_some (re : Regexp) (str : String) : ∃ m, getMatchList re str = some m := by
  cases h : re.MatchString str with
  | false => exact ⟨[], by simp [getMatchList, h]⟩
  | true =>
      have hf : ∃ matched, findFrom re str.data = some matched := by
        simpa [Regexp.MatchString, Option.isSome_iff_exists] using h
      obtain ⟨matched, hm⟩ := hf
      have hlen : matched.length = re.NumSubexp + 1 := findFrom_length hm
      have hloop : getMatchList re str = getMatchLoop matched 1 re.capNames [] := by
        simp [getMatchList, h, Regexp.FindStringSubmatch, hm, Regexp.SubexpNames, getMatchLoop]
      obtain ⟨m, hmm⟩ := getMatchLoop_total matched re.capNames 1 []
        (by rw [capNames_length, hlen]; omega)
      exact ⟨m, hloop.trans hmm⟩

theorem extractNameParts_some (filename : String) (re : Regexp) :
    ∃ p, extractNameParts filename re = some p := by
  obtain ⟨m, hm⟩ := getMatchList_some re filename
  exact ⟨(m.get "schema", m.get "object"), by simp [extractNameParts, hm]⟩

theorem checkLoop_eq (fs : FS) (tablePath : List String) (re : Regexp) :
    ∀ (files : List FileInfo) (result : List String),
      checkLoop fs tablePath re files result
        = some (result ++ (files.map FileInfo.Name).filter (flagged fs tablePath re)) := by
  intro files
  induction files with
  | nil => intro result; simp [checkLoop]
  | cons f files ih =>
      intro result
      obtain ⟨p, hp⟩ := extractNameParts_some f.Name re
      obtain ⟨schema, object⟩ := p
      cases hm : re.MatchString f.Name with
      | false => simp [checkLoop, hm, ih, flagged]
      | true =>
          cases ht : tableExists fs tablePath schema object with
          | false => simp [checkLoop, hm, hp, ht, ih, flagged]
          | true => simp [checkLoop, hm, hp, ht, ih, flagged]

theorem flagged_eq_missingTable (fs : FS) (lead : List Char) (name : String)
    (h : obstructed fs tableDir = false) (hn : name.utf8ByteSize ≤ NAME_MAX)
    (hp : pathBytes (tableDir ++ [name]) ≤ fs.room) :
    flagged fs ["WigginDB", "Tables"] (nameRule lead) name
      = missingTable fs (nameRule lead) name := by
  simp only [flagged, missingTable, tableExists]
  cases hm : (nameRule lead).MatchString name with
  | false => rfl
  | true =>
      obtain ⟨p, hpe⟩ := extractNameParts_some name (nameRule lead)
      obtain ⟨schema, object⟩ := p
      have hb := table_name_bytes lead name schema object hm hpe
      rw [hpe]
      simp only [Bool.true_and]
      rw [show (["WigginDB", "Tables"] : List String) = tableDir from rfl,
        fileExists_eq_hasEntry fs tableDir _ h (by omega)
          (by rw [pathBytes_append] at hp ⊢; omega)]

theorem filter_flagged (fs : FS) (lead : List Char) (src : List String)
    (files : List FileInfo) (h : obstructed fs tableDir = false)
    (hl : listDir fs src = .ok files) (hs : pathBytes tableDir ≤ pathBytes src) :
    (files.map FileInfo.Name).filter (flagged fs ["WigginDB", "Tables"] (nameRule lead))
      = (files.map FileInfo.Name).filter (missingTable fs (nameRule lead)) := by
  apply List.filter_congr
  intro name hname
  obtain ⟨f, hf, rfl⟩ := List.mem_map.1 hname
  obtain ⟨h1, h2⟩ := ReadDir_fits fs src files hl f hf
  apply flagged_eq_missingTable fs lead f.Name h h1
  rw [pathBytes_append] at h2 ⊢
  omega

theorem checkIfMissingTable_ok (fs : FS) (re : Regexp) (path : List String)
    (files : List FileInfo) (h : listDir fs path = .ok files) :
    checkIfMissingTable fs re path
      = some ((files.map FileInfo.Name).filter (flagged fs ["WigginDB", "Tables"] re), none) := by
  simp [checkIfMissingTable, h, checkLoop_eq]

theorem checkIfMissingTable_error (fs : FS) (re : Regexp) (path : List String)
    (e : Err) (h : listDir fs path = .error e) :
    checkIfMissingTable fs re path = some ([], some e) := by
  simp [checkIfMissingTable, h]

/-- C1 (as amended): when the table directory is a searchable directory or is
absent, and the source directory can be listed, each cross-reference check
succeeds and sets its sequence to the listed names, in listing order, that
match its rule and whose `<schema>.<object>.sql` (the values extracted from the
name) is no entry of the table directory; all other fields are unchanged. -/
theorem missing_table_sequences (fs : FS) (r : Repo) (files : List FileInfo)
    (hT : obstructed fs tableDir = false) :
    (listDir fs ["WigginDB", "Security Policies"] = .ok files →
      CheckPolicyMissingTable fs r = some ({ r with policiesMissingTable :=
        ((files.map FileInfo.Name).filter (missingTable fs policyPattern)) }, none)) ∧
    (listDir fs ["WigginDB", "Functions"] = .ok files →
      CheckFunctionMissingTable fs r = some ({ r with functionsMissingTable :=
        ((files.map FileInfo.Name).filter (missingTable fs functionPattern)) }, none)) := by
  constructor
  · intro h
    have hf := filter_flagged fs "Security.".data _ files hT h (by decide)
    simp only [CheckPolicyMissingTable, checkIfMissingTable_ok fs _ _ files h]
    rw [show policyPattern = nameRule "Security.".data from rfl, hf]
  · intro h
    have hf := filter_flagged fs "Security.fn_RLS_Read_".data _ files hT h (by decide)
    simp only [CheckFunctionMissingTable, checkIfMissingTable_ok fs _ _ files h]
    rw [show functionPattern = nameRule "Security.fn_RLS_Read_".data from rfl, hf]

theorem missing_table_sequences_witness :
    CheckPolicyMissingTable fsPolicy (New "repo")
      = some ({ New "repo" with policiesMissingTable := ["Security.sales_invoices.sql"] }, none) :=
  ((missing_table_sequences fsPolicy (New "repo")
    [⟨"Security.sales_invoices.sql", 100, false⟩, ⟨"Security.sales_orders.sql", 100, false⟩]
    (by decide)).1 rfl).trans (by decide)

/-- C1, the claim as stated fails: the policy `Security.sales_orders.sql`
matches, no `sales.orders.sql` exists in the table directory, and yet the
sequence stays empty, both when the table directory may not be searched and
when a regular file stands in its place. -/
theorem missing_table_not_reported :
    policyPattern.MatchString "Security.sales_orders.sql" = true ∧
    extractNameParts "Security.sales_orders.sql" policyPattern = some ("sales", "orders") ∧
    hasEntry fsTablesDenied tableDir "sales.orders.sql" = false ∧
    CheckPolicyMissingTable fsTablesDenied (New "repo") = some (New "repo", none) ∧
    hasEntry fsTablesFile tableDir "sales.orders.sql" = false ∧
    CheckPolicyMissingTable fsTablesFile (New "repo") = some (New "repo", none) := by
  decide

/-- C5 (as amended): when the source directory of a cross-reference check
cannot be listed, the check returns that error and leaves the Repo as it was.
The table directory is never listed: whenever the source directory can be
listed the check returns no error, whatever the state of the table
directory. -/
theorem source_listing_error (fs : FS) (r : Repo) :
    (∀ e, listDir fs ["WigginDB", "Security Policies"] = .error e →
      CheckPolicyMissingTable fs r = some (r, some e)) ∧
    (∀ e, listDir fs ["WigginDB", "Functions"] = .error e →
      CheckFunctionMissingTable fs r = some (r, some e)) ∧
    (∀ files, listDir fs ["WigginDB", "Security Policies"] = .ok files →
      ∃ r1, CheckPolicyMissingTable fs r = some (r1, none)) ∧
    (∀ files, listDir fs ["WigginDB", "Functions"] = .ok files →
      ∃ r1, CheckFunctionMissingTable fs r = some (r1, none)) := by
  refine ⟨?_, ?_, ?_, ?_⟩
  · intro e h
    simp [CheckPolicyMissingTable, checkIfMissingTable_error fs _ _ e h]
  · intro e h
    simp [CheckFunctionMissingTable, checkIfMissingTable_error fs _ _ e h]
  · intro files h
    simp only [CheckPolicyMissingTable, checkIfMissingTable_ok fs _ _ files h]
    exact ⟨_, rfl⟩
  · intro files h
    simp only [CheckFunctionMissingTable, checkIfMissingTable_ok fs _ _ files h]
    exact ⟨_, rfl⟩

theorem source_listing_error_witness :
    CheckPolicyMissingTable ⟨none, 4091⟩ (New "repo") = some (New "repo", some .notExist) ∧
    CheckFunctionMissingTable ⟨none, 4091⟩ (New "repo") = some (New "repo", some .notExist) ∧
    (∃ r1, CheckPolicyMissingTable fsTablesDenied (New "repo") = some (r1, none)) ∧
    (∃ r1, CheckFunctionMissingTable fsNoTables (New "repo") = some (r1, none)) :=
  ⟨(source_listing_error ⟨none, 4091⟩ (New "repo")).1 .notExist rfl,
    (source_listing_error ⟨none, 4091⟩ (New "repo")).2.1 .notExist rfl,
    (source_listing_error fsTablesDenied (New "repo")).2.2.1
      [⟨"Security.sales_orders.sql", 100, false⟩] rfl,
    (source_listing_error fsNoTables (New "repo")).2.2.2
      [⟨"Security.fn_RLS_Read_sales_orders.sql", 100, false⟩] rfl⟩

/-- C5, the claim as stated fails: with no table directory at all (it cannot
be listed) both checks return no error and record every matching source file
as a violation. -/
theorem absent_tables_become_violations :
    listDir fsNoTables tableDir = .error .notExist ∧
    CheckPolicyMissingTable fsNoTables (New "repo")
      = some ({ New "repo" with policiesMissingTable := ["Security.sales_orders.sql"] }, none) ∧
    CheckFunctionMissingTable fsNoTables (New "repo")
      = some ({ New "repo" with
          functionsMissingTable := ["Security.fn_RLS_Read_sales_orders.sql"] }, none) := by
  refine ⟨rfl, ?_, ?_⟩ <;> decide

/-! ## The library check -/

theorem libsLoop_eq (fs : FS) :
    ∀ (files : List FileInfo) (r : Repo),
      libsLoop fs files r = { r with libsMissingSchema :=
        r.libsMissingSchema ++ (files.filter (flaggedLib fs)).map FileInfo.Name } := by
  intro files
  induction files with
  | nil => intro r; simp [libsLoop]
  | cons f files ih =>
      intro r
      cases hd : f.IsDir with
      | false => simp [libsLoop, hd, ih, flaggedLib]
      | true =>
          cases hc : contains f.Name excludedItems with
          | true => simp [libsLoop, hd, hc, ih, flaggedLib]
          | false =>
              cases he : fileExists fs ["WigginDB", "Security", "Schemas", f.Name ++ ".sql"] with
              | true => simp [libsLoop, hd, hc, he, ih, flaggedLib]
              | false => simp [libsLoop, hd, hc, he, ih, flaggedLib]

theorem flaggedLib_eq_missingSchema (fs : FS) (h : obstructed fs schemaDir = false) :
    flaggedLib fs = missingSchema fs := by
  funext f
  simp only [flaggedLib, missingSchema]
  rw [show (["WigginDB", "Security", "Schemas", f.Name ++ ".sql"] : List String)
      = schemaDir ++ [f.Name ++ ".sql"] from rfl, fileExists_eq fs schemaDir _ h]
  cases f.IsDir <;> cases contains f.Name excludedItems <;>
    cases hasEntry fs schemaDir (f.Name ++ ".sql") <;>
    cases refused fs schemaDir (f.Name ++ ".sql") <;> rfl

/-- C3 (as amended): when the schema directory is a searchable directory or is
absent, and the library root can be listed, `CheckLibsMissingSchema` on a
freshly created Repo succeeds and `libsMissingSchema` holds, in listing order,
exactly the names of the listed entries that are directories, are not in the
exclusion set, have no entry `<name>.sql` in the schema directory and whose
`<name>.sql` the system does not refuse there as too long. -/
theorem libs_missing_schema (fs : FS) (path : String) (files : List FileInfo)
    (hL : listDir fs ["Intility.Wiggin", "WigginLib"] = .ok files)
    (hS : obstructed fs schemaDir = false) :
    CheckLibsMissingSchema fs (New path) = ({ New path with libsMissingSchema :=
      ((files.filter (missingSchema fs)).map FileInfo.Name) }, none) := by
  simp [CheckLibsMissingSchema, hL, libsLoop_eq, flaggedLib_eq_missingSchema fs hS, New]

theorem libs_missing_schema_witness :
    CheckLibsMissingSchema fsLibs (New "repo") = (New "repo", none) :=
  (libs_missing_schema fsLibs "repo"
    [⟨"Sales", 4096, true⟩, ⟨"_Data", 4096, true⟩, ⟨"bin", 4096, true⟩] rfl (by decide)).trans
    (by decide)

set_option maxRecDepth 100000

/-- C3, the claim as stated fails.  `Sales` is a subdirectory of the library
root outside the exclusion set and no `Sales.sql` exists in the schema
directory, which the process may not search; `libsMissingSchema` stays empty.
And with a searchable, empty schema directory the library whose name is 252
letters `a` is not reported either, its schema file name being over
`NAME_MAX`: only `b` is. -/
theorem missing_schema_not_reported :
    listDir fsSchemasDenied ["Intility.Wiggin", "WigginLib"] = .ok [⟨"Sales", 4096, true⟩] ∧
    contains "Sales" excludedItems = false ∧
    hasEntry fsSchemasDenied schemaDir "Sales.sql" = false ∧
    CheckLibsMissingSchema fsSchemasDenied (New "repo") = (New "repo", none) ∧
    listDir fsLongName ["Intility.Wiggin", "WigginLib"]
      = .ok [⟨String.mk (List.replicate 252 'a'), 4096, true⟩, ⟨"b", 4096, true⟩] ∧
    contains (String.mk (List.replicate 252 'a')) excludedItems = false ∧
    obstructed fsLongName schemaDir = false ∧
    hasEntry fsLongName schemaDir (String.mk (List.replicate 252 'a') ++ ".sql") = false ∧
    CheckLibsMissingSchema fsLongName (New "repo")
      = ({ New "repo" with libsMissingSchema := ["b"] }, none) := by
  refine ⟨rfl, ?_, ?_, ?_, rfl, ?_, ?_, ?_, ?_⟩ <;> decide

set_option maxRecDepth 512

/-! ## The walk of `CheckEmptyFiles` -/

mutual
theorem walk_emptyFiles (room : Nat) : ∀ (n : Node) (path : String) (used : Nat) (name : String),
    ∃ (found : List String) (e : Option Err), ∀ r : Repo,
      walk emptyFilesFn room path used name n r
        = some ({ r with emptyFiles := r.emptyFiles ++ found }, e)
  | .file size, path, used, name => by
      by_cases h : (contains (Ext name) [".sql", ".cs"] && decide (size < 3)) = true
      · exact ⟨[path], none, fun r => by simp [walk, emptyFilesFn, h]⟩
      · exact ⟨[], none, fun r => by simp [walk, emptyFilesFn, h]⟩
  | .dir size readable searchable entries, path, used, name => by
      cases readable with
      | false => exact ⟨[], some .other, fun r => by simp [walk, emptyFilesFn]⟩
      | true =>
          obtain ⟨found, e, hf⟩ := walkEntries_emptyFiles room entries path used searchable
          by_cases h : (contains (Ext name) [".sql", ".cs"] && decide (size < 3)) = true
          · exact ⟨path :: found, e, fun r => by simp [walk, emptyFilesFn, h, hf]⟩
          · exact ⟨found, e, fun r => by simp [walk, emptyFilesFn, h, hf]⟩
theorem walkEntries_emptyFiles (room : Nat) :
    ∀ (entries : List (String × Node)) (path : String) (used : Nat) (searchable : Bool),
    ∃ (found : List String) (e : Option Err), ∀ r : Repo,
      walkEntries emptyFilesFn room path used searchable entries r
        = some ({ r with emptyFiles := r.emptyFiles ++ found }, e)
  | [], path, used, searchable => ⟨[], none, fun r => by simp [walkEntries]⟩
  | (name, n) :: rest, path, used, searchable => by
      by_cases hl : (!searchable || decide (NAME_MAX < name.utf8ByteSize) ||
          decide (room < used + (1 + name.utf8ByteSize))) = true
      · exact ⟨[], some .other, fun r => by
          simp only [walkEntries, hl, if_true, emptyFilesFn]
          simp⟩
      · obtain ⟨f1, e1, h1⟩ := walk_emptyFiles room n (Join [path, name])
          (used + (1 + name.utf8ByteSize)) name
        obtain ⟨f2, e2, h2⟩ := walkEntries_emptyFiles room rest path used searchable
        cases e1 with
        | some e => exact ⟨f1, some e, fun r => by simp [walkEntries, hl, h1]⟩
        | none => exact ⟨f1 ++ f2, e2, fun r => by simp [walkEntries, hl, h1, h2]⟩
end

theorem CheckEmptyFiles_appends (fs : FS) (path : String) :
    ∃ (found : List String) (e : Option Err), ∀ r : Repo, r.path = path →
      CheckEmptyFiles fs r = some ({ r with emptyFiles := r.emptyFiles ++ found }, e) := by
  cases hr : fs.root with
  | none =>
      exact ⟨[], some .notExist, fun r _ => by simp [CheckEmptyFiles, Walk, emptyFilesFn, hr]⟩
  | some n =>
      obtain ⟨found, e, h⟩ := walk_emptyFiles fs.room n path 0 (String.mk (basename path.data))
      exact ⟨found, e, fun r hp => by simp [CheckEmptyFiles, Walk, hp, hr, h]⟩

theorem CheckFunctionMissingTable_outcome (fs : FS) :
    (∃ res, ∀ r : Repo, CheckFunctionMissingTable fs r
        = some ({ r with functionsMissingTable := res }, none)) ∨
    (∃ e, ∀ r : Repo, CheckFunctionMissingTable fs r = some (r, some e)) := by
  cases h : listDir fs ["WigginDB", "Functions"] with
  | ok files =>
      exact Or.inl ⟨(files.map FileInfo.Name).filter (flagged fs ["WigginDB", "Tables"] functionPattern),
        fun r => by simp [CheckFunctionMissingTable, checkIfMissingTable_ok fs _ _ files h]⟩
  | error e =>
      exact Or.inr ⟨e, fun r => by
        simp [CheckFunctionMissingTable, checkIfMissingTable_error fs _ _ e h]⟩

theorem CheckPolicyMissingTable_outcome (fs : FS) :
    (∃ res, ∀ r : Repo, CheckPolicyMissingTable fs r
        = some ({ r with policiesMissingTable := res }, none)) ∨
    (∃ e, ∀ r : Repo, CheckPolicyMissingTable fs r = some (r, some e)) := by
  cases h : listDir fs ["WigginDB", "Security Policies"] with
  | ok files =>
      exact Or.inl ⟨(files.map FileInfo.Name).filter (flagged fs ["WigginDB", "Tables"] policyPattern),
        fun r => by simp [CheckPolicyMissingTable, checkIfMissingTable_ok fs _ _ files h]⟩
  | error e =>
      exact Or.inr ⟨e, fun r => by
        simp [CheckPolicyMissingTable, checkIfMissingTable_error fs _ _ e h]⟩

theorem CheckLibsMissingSchema_outcome (fs : FS) :
    (∃ libs, ∀ r : Repo, CheckLibsMissingSchema fs r
        = ({ r with libsMissingSchema := r.libsMissingSchema ++ libs }, none)) ∨
    (∃ e, ∀ r : Repo, CheckLibsMissingSchema fs r = (r, some e)) := by
  cases h : listDir fs ["Intility.Wiggin", "WigginLib"] with
  | ok files =>
      exact Or.inl ⟨(files.filter (flaggedLib fs)).map FileInfo.Name,
        fun r => by simp [CheckLibsMissingSchema, h, libsLoop_eq]⟩
  | error e => exact Or.inr ⟨e, fun r => by simp [CheckLibsMissingSchema, h]⟩

/-- C7: each check writes only its own sequence.  For every Repo and every
filesystem each of the four checks returns (with or without an error) and
leaves the path and the three sequences of the other checks unchanged. -/
theorem checks_frame (fs : FS) (r : Repo) :
    (∃ r1 e, CheckEmptyFiles fs r = some (r1, e) ∧ r1.path = r.path ∧
      r1.functionsMissingTable = r.functionsMissingTable ∧
      r1.policiesMissingTable = r.policiesMissingTable ∧
      r1.libsMissingSchema = r.libsMissingSchema) ∧
    (∃ r1 e, CheckFunctionMissingTable fs r = some (r1, e) ∧ r1.path = r.path ∧
      r1.emptyFiles = r.emptyFiles ∧
      r1.policiesMissingTable = r.policiesMissingTable ∧
      r1.libsMissingSchema = r.libsMissingSchema) ∧
    (∃ r1 e, CheckPolicyMissingTable fs r = some (r1, e) ∧ r1.path = r.path ∧
      r1.emptyFiles = r.emptyFiles ∧
      r1.functionsMissingTable = r.functionsMissingTable ∧
      r1.libsMissingSchema = r.libsMissingSchema) ∧
    (∃ r1 e, CheckLibsMissingSchema fs r = (r1, e) ∧ r1.path = r.path ∧
      r1.emptyFiles = r.emptyFiles ∧
      r1.functionsMissingTable = r.functionsMissingTable ∧
      r1.policiesMissingTable = r.policiesMissingTable) := by
  refine ⟨?_, ?_, ?_, ?_⟩
  · obtain ⟨found, e, h⟩ := CheckEmptyFiles_appends fs r.path
    exact ⟨_, e, h r rfl, rfl, rfl, rfl, rfl⟩
  · rcases CheckFunctionMissingTable_outcome fs with ⟨res, h⟩ | ⟨e, h⟩
    · exact ⟨_, none, h r, rfl, rfl, rfl, rfl⟩
    · exact ⟨_, some e, h r, rfl, rfl, rfl, rfl⟩
  · rcases CheckPolicyMissingTable_outcome fs with ⟨res, h⟩ | ⟨e, h⟩
    · exact ⟨_, none, h r, rfl, rfl, rfl, rfl⟩
    · exact ⟨_, some e, h r, rfl, rfl, rfl, rfl⟩
  · rcases CheckLibsMissingSchema_outcome fs with ⟨libs, h⟩ | ⟨e, h⟩
    · exact ⟨_, none, h r, rfl, rfl, rfl, rfl⟩
    · exact ⟨_, some e, h r, rfl, rfl, rfl, rfl⟩

/-- C6, the code at the failing input: the first run of the four checks on a
fresh Repo succeeds; a second run on the same Repo against the same filesystem
succeeds too, and the empty file and the library without schema are then
listed twice, while `policiesMissingTable` and `functionsMissingTable` are as
after the first run. -/
theorem rerun_doubles :
    runChecks fsTwice (New "repo") = some ({ New "repo" with
        emptyFiles := ["repo/empty.sql"],
        policiesMissingTable := ["Security.sales_orders.sql"],
        libsMissingSchema := ["Sales"] }, [none, none, none, none]) ∧
    runChecks fsTwice { New "repo" with
        emptyFiles := ["repo/empty.sql"],
        policiesMissingTable := ["Security.sales_orders.sql"],
        libsMissingSchema := ["Sales"] } = some ({ New "repo" with
        emptyFiles := ["repo/empty.sql", "repo/empty.sql"],
        policiesMissingTable := ["Security.sales_orders.sql"],
        libsMissingSchema := ["Sales", "Sales"] }, [none, none, none, none]) := by
  constructor <;> decide

/-! ## Empty files -/

/-- C4, the code at the failing input: the walk hands the directory
`archive.sql` to the callback like any file, and `CheckEmptyFiles` lists it
next to the empty file `a.sql`; the 400-byte `b.cs` is not listed. -/
theorem emptyFiles_lists_directory :
    CheckEmptyFiles fsDirSql (New "repo")
      = some ({ New "repo" with emptyFiles := ["repo/a.sql", "repo/archive.sql"] }, none) := by
  decide

/-! ## Reporting -/

theorem foldl_lines (s : List String) :
    ∀ out : List String,
      s.foldl (fun o e => o ++ [Println ["*", e]]) out = out ++ s.map fun e => "* " ++ e := by
  induction s with
  | nil => intro out; simp
  | cons e s ih =>
      intro out
      have he : Println ["*", e] = "* " ++ e := by
        simp [Println, String.intercalate, String.intercalate.go]
      simp [ih, he]

theorem printSlice_eq (title : String) (s out : List String) :
    (if s.length > 0 then
      printSlice s (out ++ [Println [title, toString s.length]])
    else out) = out ++ report title s := by
  cases s with
  | nil => simp [report]
  | cons e s =>
      have ht : Println [title, toString (e :: s).length] = title ++ " " ++ toString (e :: s).length := by
        simp [Println, String.intercalate, String.intercalate.go]
      simp only [List.length_cons, Nat.succ_pos, gt_iff_lt, if_true, printSlice, foldl_lines,
        report, List.cons_ne_nil, if_false] at ht ⊢
      have h0 : Println [] = "" := rfl
      rw [ht, h0]
      simp

/-- C9: `PrintResults` writes, in the fixed order empty files, functions,
policies, libs, one report per non-empty sequence: a line with the title and
the length, then one line `* <member>` per member in the order of the
sequence, then a blank line; an empty sequence contributes nothing, so a Repo
with four empty sequences prints nothing. -/
theorem PrintResults_reports (r : Repo) :
    PrintResults r
      = report "empty files:" r.emptyFiles
        ++ report "rls functions missing table:" r.functionsMissingTable
        ++ report "policies missing table:" r.policiesMissingTable
        ++ report "libs missing schema:" r.libsMissingSchema ∧
    (∀ title, report title [] = []) ∧
    PrintResults { r with emptyFiles := [], functionsMissingTable := [],
                          policiesMissingTable := [], libsMissingSchema := [] } = [] := by
  have h : ∀ r : Repo, PrintResults r
      = report "empty files:" r.emptyFiles
        ++ report "rls functions missing table:" r.functionsMissingTable
        ++ report "policies missing table:" r.policiesMissingTable
        ++ report "libs missing schema:" r.libsMissingSchema := by
    intro r
    have h1 := printSlice_eq "empty files:" r.emptyFiles []
    simp only [List.nil_append] at h1
    simp only [PrintResults, List.nil_append, h1, printSlice_eq]
  refine ⟨h r, fun _ => rfl, ?_⟩
  rw [h]
  rfl

end Wiggin
